import Mathlib

/-!
Verification of the detection engine of `.github/scripts/update_my_skills.py`.

The script is embedded shallowly: text is modelled as `List Char` (the inputs
and keyword tables are ASCII, so Python's `str.lower()` and the regex classes
`\w`, `\s` are modelled on ASCII characters), the HTTP layer is an oracle
passed as a function argument, and Python sets/dicts are modelled as lists
with first-wins association lookup (only membership and first-binding matter
to the program).  Each definition carries the line numbers of the Python code
it embeds.
-/

namespace UpdateMySkills

abbrev Str := List Char

def strOf (s : String) : Str := s.data

/-- Python `str.lower()` (ASCII model; `Char.toLower` lowercases `A`-`Z`). -/
def lowerStr (s : Str) : Str := s.map Char.toLower

/-- Python regex class `\w` (ASCII model): letters, digits, underscore. -/
def isWordChar (c : Char) : Bool := c.isAlphanum || c == '_'

/-- Python regex class `\s` (ASCII model). -/
def isPySpace (c : Char) : Bool := c == ' ' || c == '\t' || c == '\n' || c == '\r'

/-! ### Keyword tables (lines 74-141, 164-188 of the script) -/

def DB_KEYWORDS : List (String × String) :=
  [("postgres", "PostgreSQL"), ("postgresql", "PostgreSQL"), ("psycopg2", "PostgreSQL"),
   ("pg", "PostgreSQL"), ("mysql", "MySQL"), ("mariadb", "MariaDB"), ("pymysql", "MySQL"),
   ("mysql-connector", "MySQL"), ("sqlite", "SQLite"), ("sqlite3", "SQLite"),
   ("mongodb", "MongoDB"), ("mongo", "MongoDB"), ("redis", "Redis"),
   ("cockroach", "CockroachDB"), ("mssql", "SQL Server"), ("sqlserver", "SQL Server")]

def FRONTEND_KEYWORDS : List (String × String) :=
  [("react", "React"), ("next", "Next.js"), ("next.js", "Next.js"), ("vue", "Vue.js"),
   ("nuxt", "Nuxt"), ("angular", "Angular"), ("svelte", "Svelte"), ("vite", "Vite"),
   ("webpack", "Webpack")]

def SERVICE_KEYWORDS : List (String × String) :=
  [("django", "Django"), ("flask", "Flask"), ("fastapi", "FastAPI"), ("express", "Express"),
   ("spring", "Spring"), ("laravel", "Laravel"), ("asp.net", "ASP.NET"),
   ("graphql", "GraphQL"), ("rabbitmq", "RabbitMQ"), ("kafka", "Kafka")]

def DEVOPS_KEYWORDS : List (String × String) :=
  [("docker", "Docker"), ("kubernetes", "Kubernetes"), ("k8s", "Kubernetes"),
   ("helm", "Helm"), ("terraform", "Terraform"), ("ansible", "Ansible"),
   ("github actions", "GitHub Actions"), ("github-actions", "GitHub Actions"),
   ("circleci", "CircleCI"), ("gitlab-ci", "GitLab CI"), ("travis", "Travis CI"),
   ("aws", "AWS"), ("amazon web services", "AWS"), ("gcp", "GCP"),
   ("google cloud", "GCP"), ("azure", "Azure"), ("microsoft azure", "Azure"),
   ("prometheus", "Prometheus"), ("grafana", "Grafana"), ("nginx", "Nginx"),
   ("chef", "Chef"), ("consul", "Consul")]

def DS_LIB_KEYWORDS : List (String × String) :=
  [("numpy", "NumPy"), ("pandas", "Pandas"), ("scikit-learn", "Scikit-learn"),
   ("sklearn", "Scikit-learn"), ("torch", "PyTorch"), ("pytorch", "PyTorch"),
   ("tensorflow", "TensorFlow"), ("hydra", "Hydra"), ("hydra-core", "Hydra"),
   ("wandb", "WandB"), ("optuna", "Optuna"), ("transformers", "HuggingFace"),
   ("datasets", "HuggingFace"), ("sentence-transformers", "HuggingFace"),
   ("keras", "Keras"), ("xgboost", "XGBoost"), ("lightgbm", "LightGBM"),
   ("catboost", "CatBoost"), ("spacy", "spaCy"), ("statsmodels", "Statsmodels"),
   ("scipy", "SciPy"), ("gensim", "Gensim"), ("fastai", "fastai")]

def PACKAGE_MANAGERS : List String :=
  ["npm", "yarn", "pip", "pipenv", "poetry", "composer", "cargo", "bundler", "gem"]

def FORBIDDEN_SKILLS : List String :=
  ["Jupyter Notebook", "Dockerfile", "CSS", "HTML", "Shell"]

/-! ### `scan_file_text_for_keywords` (lines 327-333)

```python
def scan_file_text_for_keywords(text, keywords_map):
    found = set()
    txt = (text or "").lower()
    for k, label in keywords_map.items():
        if k.lower() in txt:
            found.add(label)
    return found
```
Python's `in` on strings is substring containment, embedded as `<:+:` on
character lists.  The result set is modelled as the list of matched labels
(only membership is used downstream). -/

def scan_file_text_for_keywords (text : Str) (keywords_map : List (String × String)) :
    List String :=
  (keywords_map.filter fun kv => decide (lowerStr kv.1.data <:+: lowerStr text)).map Prod.snd

/-! Spec-side notion used by the claims: a keyword occurs in a buffer as a
*standalone token* when some occurrence is delimited on both sides by a
non-word character or a string boundary.  (This is written from the spec's
words, to be compared with the scanning the script actually does.) -/

def standaloneAux (k : Str) (prevOk : Bool) : Str → Bool
  | [] => prevOk && k.isPrefixOf ([] : Str)
  | c :: rest =>
    (prevOk && k.isPrefixOf (c :: rest) &&
      (match (c :: rest).drop k.length with
       | [] => true
       | d :: _ => !isWordChar d)) ||
    standaloneAux k (!isWordChar c) rest

def standaloneToken (k s : Str) : Bool := standaloneAux k true s

theorem standaloneAux_infix (k : Str) :
    ∀ (s : Str) (p : Bool), standaloneAux k p s = true → k <:+: s := by
  intro s
  induction s with
  | nil =>
    intro p h
    simp only [standaloneAux, Bool.and_eq_true] at h
    have := List.isPrefixOf_iff_prefix.mp h.2
    exact this.isInfix
  | cons c rest ih =>
    intro p h
    simp only [standaloneAux, Bool.or_eq_true, Bool.and_eq_true] at h
    rcases h with h | h
    · exact (List.isPrefixOf_iff_prefix.mp h.1.2).isInfix
    · exact List.infix_cons (ih _ h)

theorem standaloneToken_infix {k s : Str} (h : standaloneToken k s = true) : k <:+: s :=
  standaloneAux_infix k s true h

/-- C1.  The claim states whole-word matching; the code (lines 327-333) does
substring matching.  The buffer `"upgrade"` contains the keyword `"pg"`
only inside the longer token `upgrade`, no keyword labelled `PostgreSQL`
occurs standalone, yet `PostgreSQL` is reported. -/
theorem C1_counterexample :
    "PostgreSQL" ∈ scan_file_text_for_keywords (strOf "upgrade") DB_KEYWORDS ∧
    ∀ kv ∈ DB_KEYWORDS, kv.2 = "PostgreSQL" →
      standaloneToken (lowerStr kv.1.data) (lowerStr (strOf "upgrade")) = false := by
  decide

/-- C1 (amended).  Keyword matching is case-insensitive *substring*
containment: a label is reported iff some keyword mapping to it occurs
anywhere in the lower-cased buffer, even inside a longer token; in
particular every standalone occurrence is still reported. -/
theorem C1_substring_matching (text : Str) (keywords_map : List (String × String))
    (label : String) :
    (label ∈ scan_file_text_for_keywords text keywords_map ↔
      ∃ kv ∈ keywords_map, kv.2 = label ∧ lowerStr kv.1.data <:+: lowerStr text) ∧
    (∀ kv ∈ keywords_map, kv.2 = label →
      standaloneToken (lowerStr kv.1.data) (lowerStr text) = true →
      label ∈ scan_file_text_for_keywords text keywords_map) := by
  constructor
  · constructor
    · intro h
      simp only [scan_file_text_for_keywords, List.mem_map, List.mem_filter,
        decide_eq_true_eq] at h
      obtain ⟨kv, ⟨hmem, hinf⟩, hlab⟩ := h
      exact ⟨kv, hmem, hlab, hinf⟩
    · rintro ⟨kv, hmem, hlab, hinf⟩
      simp only [scan_file_text_for_keywords, List.mem_map, List.mem_filter,
        decide_eq_true_eq]
      exact ⟨kv, ⟨hmem, hinf⟩, hlab⟩
  · intro kv hmem hlab hstand
    simp only [scan_file_text_for_keywords, List.mem_map, List.mem_filter,
      decide_eq_true_eq]
    exact ⟨kv, ⟨hmem, standaloneToken_infix hstand⟩, hlab⟩

/-- Witness for `C1_substring_matching`: the standalone keyword `mysql`
in the buffer `"use mysql now"` is reported. -/
theorem C1_substring_matching_witness :
    "MySQL" ∈ scan_file_text_for_keywords (strOf "use mysql now") DB_KEYWORDS :=
  (C1_substring_matching (strOf "use mysql now") DB_KEYWORDS "MySQL").2
    ("mysql", "MySQL") (by decide) rfl (by decide)

/-! ### Import extraction from `.py` sources (lines 337-384)

The regex
`^\s*(?:from\s+([A-Za-z0-9_\.]+)\s+import\s+(.+)|import\s+(.+))` with
`re.MULTILINE` matches per line: at a line start, optional whitespace, then
either a `from <module> import <rest>` or an `import <rest>` statement, the
`(.+)` groups running to the end of the line.  Since the module character
class contains no whitespace, the greedy quantifiers make the match unique:
the module is the maximal module-character run, and the final `(.+)` is the
remainder after the maximal whitespace run, falling back to a single final
whitespace character when the line ends in two or more whitespace
characters (`\s+` backtracks by one to let `.+` be non-empty). -/

def isModChar (c : Char) : Bool := c.isAlphanum || c == '_' || c == '.'

/-- The `(.+)` group after `\s+` applied to the remainder `r` of a line. -/
def restAfterWs (r : Str) : Option Str :=
  match r with
  | [] => none
  | c :: _ =>
    if !isPySpace c then none
    else match r.dropWhile isPySpace with
      | [] => if 2 ≤ r.length then (r.getLast?).map (fun d => [d]) else none
      | rem => some rem

inductive PyImport where
  | fromImp (mod : Str) (rest : Str)
  | imp (rest : Str)

/-- The `from`-alternative of the import regex, applied to the line with its
leading whitespace already stripped. -/
def parseFromBranch (l : Str) : Option (Str × Str) :=
  if ("from".data).isPrefixOf l then
    let r1 := l.drop 4
    if r1.takeWhile isPySpace = [] then none
    else
      let r2 := r1.dropWhile isPySpace
      let m := r2.takeWhile isModChar
      if m = [] then none
      else
        let r3 := r2.dropWhile isModChar
        if r3.takeWhile isPySpace = [] then none
        else
          let r4 := r3.dropWhile isPySpace
          if ("import".data).isPrefixOf r4 then
            (restAfterWs (r4.drop 6)).map (fun rest => (m, rest))
          else none
  else none

/-- One line of `_import_re.finditer` (either alternative). -/
def parseLine (line : Str) : Option PyImport :=
  let l := line.dropWhile isPySpace
  match parseFromBranch l with
  | some mr => some (.fromImp mr.1 mr.2)
  | none =>
    if ("import".data).isPrefixOf l then
      (restAfterWs (l.drop 6)).map .imp
    else none

/-- Python `text.split(c)` (all pieces kept, empty ones included). -/
def splitOnChar (c : Char) : Str → List Str
  | [] => [[]]
  | d :: rest =>
    let r := splitOnChar c rest
    if d = c then [] :: r
    else
      match r with
      | [] => [[d]]
      | piece :: ps => (d :: piece) :: ps

def splitLines (s : Str) : List Str := splitOnChar '\n' s

/-- Python `str.strip()` (ASCII whitespace model). -/
def pyStrip (s : Str) : Str := ((s.dropWhile isPySpace).reverse.dropWhile isPySpace).reverse

theorem length_dropWhileLe (p : Char → Bool) (l : Str) :
    (l.dropWhile p).length ≤ l.length :=
  (List.dropWhile_sublist p).length_le

def isAsWord (a b : Char) : Bool := (a == 'a' || a == 'A') && (b == 's' || b == 'S')

/-- Python `re.split(r'\s+as\s+', s, flags=re.IGNORECASE)`: pieces between
non-overlapping leftmost matches of whitespace, `as`/`AS`/`aS`/`As`,
whitespace. -/
def splitAsGo (cur : Str) : Nat → Str → List Str
  | _, [] => [cur.reverse]
  | 0, s => [cur.reverse ++ s]
  | fuel + 1, c :: rest =>
    if isPySpace c then
      match (c :: rest).dropWhile isPySpace with
      | a :: b :: t2 =>
        if isAsWord a b && (match t2 with | d :: _ => isPySpace d | [] => false) then
          cur.reverse :: splitAsGo [] fuel (t2.dropWhile isPySpace)
        else splitAsGo (c :: cur) fuel rest
      | _ => splitAsGo (c :: cur) fuel rest
    else splitAsGo (c :: cur) fuel rest

def splitAs (s : Str) : List Str := splitAsGo [] s.length s

/-- `mod.split('.')[0].lower()` (lines 361, 378). -/
def baseOf (m : Str) : Str := lowerStr ((splitOnChar '.' m).headD [])

/-- Python dict-of-set, as an association list with deduplicating value
lists; `setdefault(k, set()).add(v)`. -/
def addToMap : List (Str × List Str) → Str → Str → List (Str × List Str)
  | [], k, v => [(k, [v])]
  | kv :: rest, k, v =>
    if kv.1 = k then (k, if v ∈ kv.2 then kv.2 else kv.2 ++ [v]) :: rest
    else kv :: addToMap rest k v

def lookupL (m : List (Str × List Str)) (k : Str) : List Str :=
  match m.find? (fun kv => kv.1 == k) with
  | some kv => kv.2
  | none => []

/-- Lines 364-370: one `from`-imported symbol (`sym_name` is the symbol
before any `as` alias, lower-cased; the alias is computed but unused). -/
def fromStep (base : Str) (fm : List (Str × List Str)) (sym : Str) :
    List (Str × List Str) :=
  let parts := (splitAs sym).map pyStrip
  addToMap fm base (lowerStr (parts.headD []))

/-- Lines 373-383: one comma-separated part of a plain `import` statement. -/
def impStep (im : List (Str × List Str)) (part : Str) : List (Str × List Str) :=
  let subparts := (splitAs part).map pyStrip
  let mod := subparts.headD []
  let base := baseOf mod
  match subparts.get? 1 with
  | some al => addToMap im base (lowerStr al)
  | none => addToMap im base base

/-- One `finditer` match of `_import_re` (lines 355-383). -/
def parseFoldStep (maps : List (Str × List Str) × List (Str × List Str))
    (line : Str) : List (Str × List Str) × List (Str × List Str) :=
  match parseLine line with
  | none => maps
  | some (.fromImp m rest) =>
    let base := baseOf m
    let symbols := (splitOnChar ',' rest).map pyStrip
    (maps.1, symbols.foldl (fromStep base) maps.2)
  | some (.imp rest) =>
    let parts := (splitOnChar ',' rest).map pyStrip
    (parts.foldl impStep maps.1, maps.2)

/-- `parse_imports_from_py` (lines 343-384): returns
`(imports_map, from_imports_map)`, both keyed by the lower-cased top-level
module name; `imports_map` collects aliases (or the base itself for
plain ones), `from_imports_map` collects the lower-cased imported symbol
names. -/
def parse_imports_from_py (text : Str) : List (Str × List Str) × List (Str × List Str) :=
  (splitLines text).foldl parseFoldStep ([], [])

/-! ### Usage-pattern search (lines 560-592)

`re.search(r'\b' + re.escape(a) + r'\s*\.', txt)` and the `(`-variant.
A match is a position with a `\b` word boundary, the literal pattern, then
optional whitespace and the target character (`\s*` is greedy but whitespace
never equals the target, so only the full whitespace run can precede it). -/

def wsThen (target : Char) (s : Str) : Bool :=
  match s.dropWhile isPySpace with
  | c :: _ => c == target
  | [] => false

def bBoundary (prev : Option Char) (s : Str) : Bool :=
  (match prev with | some c => isWordChar c | none => false) !=
  (match s with | c :: _ => isWordChar c | [] => false)

def searchAux (pat : Str) (target : Char) (prev : Option Char) : Str → Bool
  | [] => false
  | c :: rest =>
    (bBoundary prev (c :: rest) && pat.isPrefixOf (c :: rest) &&
      wsThen target ((c :: rest).drop pat.length)) ||
    searchAux pat target (some c) rest

def searchBoundaryPat (pat : Str) (target : Char) (txt : Str) : Bool :=
  searchAux pat target none txt

/-- The per-library strong-signal check of lines 560-589: an imported
alias followed by `.`, or a `from`-imported symbol followed by `(` or `.`,
somewhere in the fetched `.py` file texts. -/
def ds_used (importsAll fromAll : List (Str × List Str)) (fileTexts : List Str)
    (base : Str) : Bool :=
  (fileTexts.any fun txt =>
    (lookupL importsAll base).any fun a => searchBoundaryPat a '.' txt) ||
  (fileTexts.any fun txt =>
    (lookupL fromAll base).any fun s =>
      searchBoundaryPat s '(' txt || searchBoundaryPat s '.' txt)

/-! ### Candidate file selection and the fetch loop (lines 387-477) -/

structure TreeEntry where
  path : String
  type : String

/-- Line 391: blob paths of the fetched tree. -/
def blobPaths (tree : List TreeEntry) : List String :=
  (tree.filter fun e => e.type == "blob").map TreeEntry.path

def FILE_TOOL_MAP : List (String × List String) :=
  [("package.json", ["nodejs"]), ("pyproject.toml", ["python"]),
   ("requirements.txt", ["python"]), ("Pipfile", ["python"]),
   ("poetry.lock", ["python"]), ("go.mod", ["go"]), ("pom.xml", ["java"]),
   ("build.gradle", ["java"]), ("Gemfile", ["ruby"]), ("composer.json", ["php"]),
   ("Dockerfile", ["docker"]), ("next.config.js", ["next.js"]),
   ("nuxt.config", ["nuxt"]), ("angular.json", ["angular"]),
   ("vite.config.js", ["vite"]), ("webpack.config.js", ["webpack"]),
   ("Cargo.toml", ["rust"])]

def ENV_CONFIG_NAMES : List String :=
  [".env", ".env.example", ".env.sample", "database.yml", "database.yaml",
   "application.yml", "config.yml"]

def MANIFEST_NAMES : List String :=
  ["package.json", "requirements.txt", "pyproject.toml", "pom.xml", "go.mod",
   "composer.json", "Gemfile", "Cargo.toml"]

def CLOUD_OPS_KEYS : List String :=
  ["cloudformation", "serverless.yml", "serverless.yaml", "azure-pipelines.yml",
   "cloudbuild.yaml", "sam.yaml", "prometheus.yml", "grafana.ini", "nginx.conf",
   "consul.hcl", "berksfile"]

/-- `os.path.basename`: the part after the last `/`. -/
def basenameStr (p : Str) : Str := ((splitOnChar '/' p).getLast?).getD p

def endsWithStr (suffix s : Str) : Bool := suffix.isSuffixOf s

/-- Lines 416-444: whether path `p` is appended to `candidates_to_fetch`
(one disjunct per `if` of the loop body, in source order; the lower-cased
basename can never equal the `Dockerfile`, `Pipfile`, `Gemfile` and
`Cargo.toml` keys, which the source spells with capitals). -/
def isCandidate (p : String) : Bool :=
  let pl : Str := p.data
  let b : Str := lowerStr (basenameStr pl)
  let pLow : Str := lowerStr pl
  (FILE_TOOL_MAP.any fun kv => b == kv.1.data) ||
  endsWithStr (strOf ".tf") pl ||
  endsWithStr (strOf ".sql") pl ||
  decide (strOf "dockerfile" <:+: b) ||
  (ENV_CONFIG_NAMES.any fun n => b == n.data) ||
  (MANIFEST_NAMES.any fun n => b == n.data) ||
  (CLOUD_OPS_KEYS.any fun k => decide (k.data <:+: b)) ||
  decide (strOf "/recipes/" <:+: pLow) || b == strOf "metadata.rb" || b == strOf "berksfile" ||
  endsWithStr (strOf "chart.yaml") pLow || decide (strOf "/charts/" <:+: pLow) ||
  endsWithStr (strOf ".py") pLow

/-- Lexicographic order on character lists by code point (Python string
`<`), as a Bool. -/
def strLt : Str → Str → Bool
  | [], [] => false
  | [], _ :: _ => true
  | _ :: _, [] => false
  | a :: as_, b :: bs => decide (a < b) || (a == b && strLt as_ bs)

/-- Stable insertion sort: `keepBefore y x` keeps `y` in front of the newly
inserted `x` (models Python's stable `sorted`). -/
def insertSorted (keepBefore : α → α → Bool) (x : α) : List α → List α
  | [] => [x]
  | y :: ys => if keepBefore y x then y :: insertSorted keepBefore x ys else x :: y :: ys

def stableSort (keepBefore : α → α → Bool) (l : List α) : List α :=
  l.foldl (fun acc x => insertSorted keepBefore x acc) []

def sortedStrings (l : List String) : List String :=
  stableSort (fun a b => !strLt b.data a.data) l

/-- Line 455: `sorted(set(candidates_to_fetch))`.  The loop of lines 416-444
appends each path once per satisfied condition; only the set of selected
paths survives the `set(...)`. -/
def candidateFiles (paths : List String) : List String :=
  sortedStrings (paths.filter isCandidate).dedup

/-- State accumulated by the fetch loop of lines 446-477. -/
structure FetchState where
  blob : Str
  importsAll : List (Str × List Str)
  fromAll : List (Str × List Str)
  fileTexts : List Str

def initFetch : FetchState := ⟨[], [], [], []⟩

/-- Merging a parsed file's maps into the global ones (lines 466-469). -/
def mergeMap (m : List (Str × List Str)) (adds : List (Str × List Str)) :
    List (Str × List Str) :=
  adds.foldl (fun acc kv => kv.2.foldl (fun a v => addToMap a kv.1 v) acc) m

/-- One iteration of the fetch loop (lines 455-477): skip missing or empty
content, extend the lower-cased content blob, and for `.py` files parse the
statements and record the file text. -/
def processFile (st : FetchState) (p : String) (txt : Option String) : FetchState :=
  match txt with
  | none => st
  | some t =>
    if t.data = [] then st
    else
      let st1 : FetchState := { st with blob := st.blob ++ '\n' :: lowerStr t.data }
      if endsWithStr (strOf ".py") (lowerStr p.data) then
        let maps := parse_imports_from_py t.data
        { st1 with
            importsAll := mergeMap st1.importsAll maps.1,
            fromAll := mergeMap st1.fromAll maps.2,
            fileTexts := st1.fileTexts ++ [t.data] }
      else st1

/-- The whole fetch loop, over the content oracle `contents` (the
`get_file_content` results). -/
def fetchCandidates (paths : List String) (contents : String → Option String) :
    FetchState :=
  (candidateFiles paths).foldl (fun st p => processFile st p (contents p)) initFetch

/-- The `datasci` component of `detect_for_repo` (lines 553-592): a library
label is collected iff `ds_used` holds for its lower-cased key. -/
def detect_datasci (paths : List String) (contents : String → Option String) :
    List String :=
  let st := fetchCandidates paths contents
  (DS_LIB_KEYWORDS.filter fun kv =>
    ds_used st.importsAll st.fromAll st.fileTexts (lowerStr kv.1.data)).map Prod.snd

/-! ### Generic fold and membership lemmas -/

theorem foldl_preserve {α σ : Type} (F : σ → α → σ) (P : σ → Prop) :
    ∀ (l : List α), (∀ s, ∀ a ∈ l, P s → P (F s a)) →
      ∀ s : σ, P s → P (l.foldl F s) := by
  intro l
  induction l with
  | nil => intro _ s h; exact h
  | cons a l ih =>
    intro hpres s h
    exact ih (fun s b hb => hpres s b (List.mem_cons_of_mem a hb)) (F s a)
      (hpres s a (List.mem_cons_self a l) h)

theorem foldl_establish {α σ : Type} (F : σ → α → σ) (P : σ → Prop) (a : α) :
    ∀ (l : List α), (∀ s, ∀ b ∈ l, P s → P (F s b)) → (∀ s, P (F s a)) →
      ∀ s : σ, a ∈ l → P (l.foldl F s) := by
  intro l
  induction l with
  | nil => intro _ _ s h; exact absurd h (List.not_mem_nil a)
  | cons b l ih =>
    intro hpres hest s h
    rcases List.mem_cons.mp h with h | h
    · subst h
      exact foldl_preserve F P l
        (fun s c hc => hpres s c (List.mem_cons_of_mem a hc)) (F s a) (hest s)
    · exact ih (fun s c hc => hpres s c (List.mem_cons_of_mem b hc)) hest (F s b) h

theorem mem_insertSorted {α : Type} (kb : α → α → Bool) (x a : α) :
    ∀ l : List α, a ∈ insertSorted kb x l ↔ a = x ∨ a ∈ l := by
  intro l
  induction l with
  | nil => simp [insertSorted]
  | cons y ys ih =>
    by_cases h : kb y x = true
    · simp only [insertSorted, if_pos h, List.mem_cons, ih]
      try tauto
    · simp only [insertSorted, if_neg h, List.mem_cons]
      try tauto

theorem mem_stableSort {α : Type} (kb : α → α → Bool) (l : List α) (a : α) :
    a ∈ stableSort kb l ↔ a ∈ l := by
  have key : ∀ (l : List α) (acc : List α),
      a ∈ l.foldl (fun acc x => insertSorted kb x acc) acc ↔ a ∈ acc ∨ a ∈ l := by
    intro l
    induction l with
    | nil => simp
    | cons x xs ih =>
      intro acc
      rw [List.foldl_cons, ih, mem_insertSorted]
      simp only [List.mem_cons]
      tauto
  simpa [stableSort] using key l []

theorem mem_sortedStrings (l : List String) (a : String) :
    a ∈ sortedStrings l ↔ a ∈ l := mem_stableSort _ l a

theorem mem_candidateFiles (paths : List String) (p : String) :
    p ∈ candidateFiles paths ↔ p ∈ paths ∧ isCandidate p = true := by
  rw [candidateFiles, mem_sortedStrings, List.mem_dedup, List.mem_filter]

/-! ### C3: no `.py` files means no Data-Science credit -/

theorem fileTexts_nil_of_no_py (paths : List String)
    (contents : String → Option String)
    (h : ∀ p ∈ paths, endsWithStr (strOf ".py") (lowerStr p.data) = false) :
    (fetchCandidates paths contents).fileTexts = [] := by
  refine foldl_preserve _ (fun st => st.fileTexts = []) (candidateFiles paths)
    ?_ initFetch rfl
  intro st p hpmem hst
  have hp : p ∈ paths := ((mem_candidateFiles paths p).mp hpmem).1
  unfold processFile
  match hc : contents p with
  | none => exact hst
  | some t =>
    by_cases ht : t.data = []
    · simp only [if_pos ht]; exact hst
    · simp only [if_neg ht]
      rw [h p hp]
      exact hst

/-- C3.  A repository with no `.py` files gets an empty Data-Science
category, whatever the (manifest or other) file contents say: the
data-science check only consults imports parsed out of fetched `.py`
files. -/
theorem C3_no_py_no_datasci (paths : List String) (contents : String → Option String)
    (h : ∀ p ∈ paths, endsWithStr (strOf ".py") (lowerStr p.data) = false) :
    detect_datasci paths contents = [] := by
  have hft := fileTexts_nil_of_no_py paths contents h
  have hds : ∀ (im fm : List (Str × List Str)) (k : Str), ds_used im fm [] k = false :=
    fun _ _ _ => rfl
  simp [detect_datasci, hft, hds]

/-- Witness for `C3_no_py_no_datasci`: a repository holding only a
`requirements.txt` whose text names `numpy` yields no Data-Science
credit. -/
theorem C3_no_py_no_datasci_witness :
    detect_datasci ["requirements.txt"] (fun _ => some "numpy==1.24\n") = [] :=
  C3_no_py_no_datasci ["requirements.txt"] (fun _ => some "numpy==1.24\n") (by decide)

/-! ### C9: `.py` is selected for fetching; `.ipynb` is not -/

theorem py_mem_candidateFiles (paths : List String) (p : String) (hp : p ∈ paths)
    (hpy : endsWithStr (strOf ".py") (lowerStr p.data) = true) :
    p ∈ candidateFiles paths := by
  rw [mem_candidateFiles]
  refine ⟨hp, ?_⟩
  unfold isCandidate
  simp only [hpy, Bool.or_true]

/-- C9 (amended).  Every blob path ending in `.py` is selected for content
fetch and import scanning. -/
theorem C9_py_selected (paths : List String) (p : String) (hp : p ∈ paths)
    (hpy : endsWithStr (strOf ".py") (lowerStr p.data) = true) :
    p ∈ candidateFiles paths :=
  py_mem_candidateFiles paths p hp hpy

/-- Witness for `C9_py_selected`. -/
theorem C9_py_selected_witness : "src/model.py" ∈ candidateFiles ["src/model.py"] :=
  C9_py_selected ["src/model.py"] "src/model.py" (by decide) (by decide)

/-- C9 (counterexample).  The claim also selects `.ipynb` notebooks and
parses them as JSON; the code (line 443 selects only `.py`; there is no
notebook handling anywhere) does not: an `.ipynb`-only tree selects no
candidate file, and a notebook full of imports earns no Data-Science
credit. -/
theorem C9_counterexample :
    candidateFiles ["notebook.ipynb"] = [] ∧
    detect_datasci ["notebook.ipynb"]
      (fun _ => some "import numpy as np\nx = np.array([1])\n") = [] := by
  decide

/-! ### Monotonicity of the import maps and the fetch fold -/

theorem lookupL_addToMap_self (m : List (Str × List Str)) (k v : Str) :
    v ∈ lookupL (addToMap m k v) k := by
  induction m with
  | nil => simp [addToMap, lookupL, List.find?]
  | cons kv rest ih =>
    by_cases h : kv.1 = k
    · simp only [addToMap, if_pos h, lookupL, List.find?, beq_self_eq_true]
      by_cases hv : v ∈ kv.2
      · simpa [hv]
      · simp [hv]
    · have hbeq : (kv.1 == k) = false := beq_eq_false_iff_ne.mpr h
      simpa [addToMap, if_neg h, lookupL, List.find?, hbeq] using ih

theorem lookupL_addToMap_mono (m : List (Str × List Str)) (k v k' v' : Str)
    (h : v ∈ lookupL m k) : v ∈ lookupL (addToMap m k' v') k := by
  induction m with
  | nil => simp [lookupL, List.find?] at h
  | cons kv rest ih =>
    by_cases hk : kv.1 = k'
    · by_cases hkk : kv.1 = k
      · have hbeq : (kv.1 == k) = true := beq_iff_eq.mpr hkk
        have hbeq' : (k' == k) = true := beq_iff_eq.mpr (hk ▸ hkk)
        simp only [lookupL, List.find?, hbeq] at h
        simp only [addToMap, if_pos hk, lookupL, List.find?, hbeq']
        by_cases hv : v' ∈ kv.2
        · simpa [hv]
        · simp only [if_neg hv]
          exact List.mem_append_left _ h
      · have hbeq : (kv.1 == k) = false := beq_eq_false_iff_ne.mpr hkk
        have hbeq' : (k' == k) = false := beq_eq_false_iff_ne.mpr (hk ▸ hkk)
        simp only [lookupL, List.find?, hbeq] at h
        simpa [addToMap, if_pos hk, lookupL, List.find?, hbeq'] using h
    · by_cases hkk : kv.1 = k
      · have hbeq : (kv.1 == k) = true := beq_iff_eq.mpr hkk
        simp only [lookupL, List.find?, hbeq] at h
        simpa [addToMap, if_neg hk, lookupL, List.find?, hbeq] using h
      · have hbeq : (kv.1 == k) = false := beq_eq_false_iff_ne.mpr hkk
        simp only [lookupL, List.find?, hbeq] at h
        simpa [addToMap, if_neg hk, lookupL, List.find?, hbeq] using ih h

theorem lookupL_mem_exists (m : List (Str × List Str)) (k v : Str)
    (h : v ∈ lookupL m k) : ∃ vs, (k, vs) ∈ m ∧ v ∈ vs := by
  unfold lookupL at h
  match hf : m.find? (fun kv => kv.1 == k) with
  | none => rw [hf] at h; simp at h
  | some kv =>
    rw [hf] at h
    have hmem := List.mem_of_find?_eq_some hf
    have hpred := List.find?_some hf
    have hk : kv.1 = k := beq_iff_eq.mp hpred
    exact ⟨kv.2, by rw [← hk]; exact hmem, h⟩

theorem lookupL_mergeMap_left (m adds : List (Str × List Str)) (k v : Str)
    (h : v ∈ lookupL m k) : v ∈ lookupL (mergeMap m adds) k := by
  refine foldl_preserve _ (fun acc => v ∈ lookupL acc k) adds ?_ m h
  intro acc kv _ hacc
  refine foldl_preserve _ (fun a => v ∈ lookupL a k) kv.2 ?_ acc hacc
  intro a w _ ha
  exact lookupL_addToMap_mono a k v kv.1 w ha

theorem lookupL_mergeMap_right (m adds : List (Str × List Str)) (k v : Str)
    (h : v ∈ lookupL adds k) : v ∈ lookupL (mergeMap m adds) k := by
  obtain ⟨vs, hmem, hv⟩ := lookupL_mem_exists adds k v h
  refine foldl_establish _ (fun acc => v ∈ lookupL acc k) (k, vs) adds ?_ ?_ m hmem
  · intro acc kv _ hacc
    refine foldl_preserve _ (fun a => v ∈ lookupL a k) kv.2 ?_ acc hacc
    intro a w _ ha
    exact lookupL_addToMap_mono a k v kv.1 w ha
  · intro acc
    refine foldl_establish _ (fun a => v ∈ lookupL a k) v vs ?_ ?_ acc hv
    · intro a w _ ha
      exact lookupL_addToMap_mono a k v k w ha
    · intro a
      exact lookupL_addToMap_self a k v

theorem processFile_fileTexts_mono (st : FetchState) (p : String) (c : Option String)
    (t : Str) (h : t ∈ st.fileTexts) : t ∈ (processFile st p c).fileTexts := by
  unfold processFile
  match c with
  | none => exact h
  | some s =>
    by_cases hs : s.data = []
    · simpa [hs] using h
    · simp only [if_neg hs]
      by_cases hpy : endsWithStr (strOf ".py") (lowerStr p.data) = true
      · simp only [hpy, if_true]
        exact List.mem_append_left _ h
      · simp only [Bool.not_eq_true] at hpy
        simp only [hpy, Bool.false_eq_true, if_false]
        exact h

theorem processFile_importsAll_mono (st : FetchState) (p : String) (c : Option String)
    (k v : Str) (h : v ∈ lookupL st.importsAll k) :
    v ∈ lookupL (processFile st p c).importsAll k := by
  unfold processFile
  match c with
  | none => exact h
  | some s =>
    by_cases hs : s.data = []
    · simpa [hs] using h
    · simp only [if_neg hs]
      by_cases hpy : endsWithStr (strOf ".py") (lowerStr p.data) = true
      · simp only [hpy, if_true]
        exact lookupL_mergeMap_left _ _ k v h
      · simp only [Bool.not_eq_true] at hpy
        simp only [hpy, Bool.false_eq_true, if_false]
        exact h

theorem processFile_fromAll_mono (st : FetchState) (p : String) (c : Option String)
    (k v : Str) (h : v ∈ lookupL st.fromAll k) :
    v ∈ lookupL (processFile st p c).fromAll k := by
  unfold processFile
  match c with
  | none => exact h
  | some s =>
    by_cases hs : s.data = []
    · simpa [hs] using h
    · simp only [if_neg hs]
      by_cases hpy : endsWithStr (strOf ".py") (lowerStr p.data) = true
      · simp only [hpy, if_true]
        exact lookupL_mergeMap_left _ _ k v h
      · simp only [Bool.not_eq_true] at hpy
        simp only [hpy, Bool.false_eq_true, if_false]
        exact h

/-- Once a non-empty `.py` file is among the candidates, its text reaches
`file_texts` and its parsed import aliases reach the merged maps. -/
theorem fetch_py_file (paths : List String) (contents : String → Option String)
    (f : String) (t : String)
    (hf : f ∈ candidateFiles paths) (hc : contents f = some t) (ht : ¬ t.data = [])
    (hpy : endsWithStr (strOf ".py") (lowerStr f.data) = true) :
    t.data ∈ (fetchCandidates paths contents).fileTexts ∧
    (∀ k v, v ∈ lookupL (parse_imports_from_py t.data).1 k →
      v ∈ lookupL (fetchCandidates paths contents).importsAll k) ∧
    (∀ k v, v ∈ lookupL (parse_imports_from_py t.data).2 k →
      v ∈ lookupL (fetchCandidates paths contents).fromAll k) := by
  have hstep : ∀ st : FetchState,
      t.data ∈ (processFile st f (contents f)).fileTexts ∧
      (∀ k v, v ∈ lookupL (parse_imports_from_py t.data).1 k →
        v ∈ lookupL (processFile st f (contents f)).importsAll k) ∧
      (∀ k v, v ∈ lookupL (parse_imports_from_py t.data).2 k →
        v ∈ lookupL (processFile st f (contents f)).fromAll k) := by
    intro st
    unfold processFile
    rw [hc]
    simp only [if_neg ht, hpy, if_true]
    refine ⟨List.mem_append_right _ (List.mem_singleton_self _), ?_, ?_⟩
    · intro k v hv
      exact lookupL_mergeMap_right _ _ k v hv
    · intro k v hv
      exact lookupL_mergeMap_right _ _ k v hv
  unfold fetchCandidates
  refine foldl_establish (fun st p => processFile st p (contents p))
    (fun st => t.data ∈ st.fileTexts ∧
      (∀ k v, v ∈ lookupL (parse_imports_from_py t.data).1 k →
        v ∈ lookupL st.importsAll k) ∧
      (∀ k v, v ∈ lookupL (parse_imports_from_py t.data).2 k →
        v ∈ lookupL st.fromAll k)) f
    (candidateFiles paths) ?_ hstep initFetch hf
  intro st p _ hst
  exact ⟨processFile_fileTexts_mono st p (contents p) t.data hst.1,
    fun k v hv => processFile_importsAll_mono st p (contents p) k v (hst.2.1 k v hv),
    fun k v hv => processFile_fromAll_mono st p (contents p) k v (hst.2.2 k v hv)⟩

/-! ### Character-class facts and parsing of a dotted import line -/

theorem wordChar_not_pySpace {c : Char} (h : isWordChar c = true) : isPySpace c = false := by
  by_contra hne
  rw [Bool.not_eq_false] at hne
  simp only [isPySpace, Bool.or_eq_true, beq_iff_eq] at hne
  rcases hne with ((h1 | h1) | h1) | h1 <;> subst h1 <;> exact absurd h (by decide)

theorem modChar_not_pySpace {c : Char} (h : isModChar c = true) : isPySpace c = false := by
  by_contra hne
  rw [Bool.not_eq_false] at hne
  simp only [isPySpace, Bool.or_eq_true, beq_iff_eq] at hne
  rcases hne with ((h1 | h1) | h1) | h1 <;> subst h1 <;> exact absurd h (by decide)

theorem wordChar_ne_comma {c : Char} (h : isWordChar c = true) : ¬ c = ',' := by
  intro he; subst he; exact absurd h (by decide)

theorem modChar_ne_comma {c : Char} (h : isModChar c = true) : ¬ c = ',' := by
  intro he; subst he; exact absurd h (by decide)

theorem wordChar_ne_dot {c : Char} (h : isWordChar c = true) : ¬ c = '.' := by
  intro he; subst he; exact absurd h (by decide)

theorem splitOnChar_ne_nil (sep : Char) (s : Str) : splitOnChar sep s ≠ [] := by
  induction s with
  | nil => simp [splitOnChar]
  | cons d rest ih =>
    unfold splitOnChar
    by_cases h : d = sep
    · simp [h]
    · simp only [if_neg h]
      match hr : splitOnChar sep rest with
      | [] => simp
      | piece :: ps => simp

theorem splitOnChar_head_prefix (sep : Char) (s : Str) :
    ∃ post, s = (splitOnChar sep s).headD [] ++ post := by
  induction s with
  | nil => exact ⟨[], rfl⟩
  | cons d rest ih =>
    unfold splitOnChar
    by_cases h : d = sep
    · exact ⟨d :: rest, by simp [h]⟩
    · simp only [if_neg h]
      obtain ⟨r0, rs, hr⟩ := List.exists_cons_of_ne_nil (splitOnChar_ne_nil sep rest)
      rw [hr]
      obtain ⟨post, hpost⟩ := ih
      rw [hr] at hpost
      simp only [List.headD_cons] at hpost ⊢
      exact ⟨post, by rw [List.cons_append, ← hpost]⟩

theorem mem_splitOnChar_infix (sep : Char) (piece : Str) :
    ∀ s : Str, piece ∈ splitOnChar sep s → ∃ pre post, s = pre ++ (piece ++ post) := by
  intro s
  induction s with
  | nil =>
    intro h
    simp only [splitOnChar, List.mem_singleton] at h
    exact ⟨[], [], by simp [h]⟩
  | cons d rest ih =>
    intro h
    unfold splitOnChar at h
    by_cases hd : d = sep
    · simp only [if_pos hd, List.mem_cons] at h
      rcases h with h | h
      · exact ⟨[], d :: rest, by simp [h]⟩
      · obtain ⟨pre, post, hdec⟩ := ih h
        exact ⟨d :: pre, post, by rw [hdec]; rfl⟩
    · simp only [if_neg hd] at h
      obtain ⟨r0, rs, hr⟩ := List.exists_cons_of_ne_nil (splitOnChar_ne_nil sep rest)
      rw [hr] at h
      simp only [List.mem_cons] at h
      rcases h with h | h
      · obtain ⟨post, hpost⟩ := splitOnChar_head_prefix sep rest
        rw [hr] at hpost
        simp only [List.headD_cons] at hpost
        refine ⟨[], post, ?_⟩
        rw [h, List.nil_append, List.cons_append, ← hpost]
      · have : piece ∈ splitOnChar sep rest := by rw [hr]; exact List.mem_cons_of_mem r0 h
        obtain ⟨pre, post, hdec⟩ := ih this
        exact ⟨d :: pre, post, by rw [hdec]; rfl⟩

theorem splitOnChar_no_sep (sep : Char) :
    ∀ s : Str, (∀ c ∈ s, ¬ c = sep) → splitOnChar sep s = [s] := by
  intro s
  induction s with
  | nil => intro _; rfl
  | cons d rest ih =>
    intro h
    unfold splitOnChar
    rw [if_neg (h d (List.mem_cons_self d rest))]
    rw [ih (fun c hc => h c (List.mem_cons_of_mem d hc))]

theorem splitOnChar_head_append (sep : Char) (sub : Str) :
    ∀ m : Str, (∀ c ∈ m, ¬ c = sep) →
      (splitOnChar sep (m ++ sep :: sub)).headD [] = m := by
  intro m
  induction m with
  | nil => intro _; simp [splitOnChar]
  | cons d m' ih =>
    intro h
    rw [List.cons_append]
    unfold splitOnChar
    rw [if_neg (h d (List.mem_cons_self d m'))]
    obtain ⟨r0, rs, hr⟩ := List.exists_cons_of_ne_nil (splitOnChar_ne_nil sep (m' ++ sep :: sub))
    rw [hr]
    have := ih (fun c hc => h c (List.mem_cons_of_mem d hc))
    rw [hr] at this
    simp only [List.headD_cons] at this ⊢
    rw [this]

theorem dropWhile_id_of_all (p : Char → Bool) (s : Str) (h : ∀ c ∈ s, p c = false) :
    s.dropWhile p = s := by
  cases s with
  | nil => rfl
  | cons c r =>
    rw [List.dropWhile_cons, h c (List.mem_cons_self c r)]
    simp

theorem pyStrip_no_ws (s : Str) (h : ∀ c ∈ s, isPySpace c = false) : pyStrip s = s := by
  unfold pyStrip
  rw [dropWhile_id_of_all _ s h]
  rw [dropWhile_id_of_all _ s.reverse (fun c hc => h c (List.mem_reverse.mp hc))]
  exact List.reverse_reverse s

theorem splitAsGo_no_ws :
    ∀ s : Str, (∀ c ∈ s, isPySpace c = false) → ∀ (cur : Str) (fuel : Nat),
      splitAsGo cur fuel s = [cur.reverse ++ s] := by
  intro s
  induction s with
  | nil => intro _ cur fuel; cases fuel <;> simp [splitAsGo]
  | cons c rest ih =>
    intro h cur fuel
    cases fuel with
    | zero => rfl
    | succ fuel =>
      unfold splitAsGo
      rw [h c (List.mem_cons_self c rest)]
      simp only [Bool.false_eq_true, if_false]
      rw [ih (fun d hd => h d (List.mem_cons_of_mem c hd)) (c :: cur) fuel]
      simp

theorem splitAs_no_ws (s : Str) (h : ∀ c ∈ s, isPySpace c = false) : splitAs s = [s] := by
  unfold splitAs
  rw [splitAsGo_no_ws s h [] s.length]
  rfl

theorem restAfterWs_cons_space (c0 : Char) (x : Str) (h0 : isPySpace c0 = false) :
    restAfterWs (' ' :: c0 :: x) = some (c0 :: x) := by
  have hsp : isPySpace ' ' = true := by decide
  simp [restAfterWs, List.dropWhile_cons, hsp, h0]

theorem parseLine_dotted (m sub : Str) (c0 : Char) (m' : Str) (hm : m = c0 :: m')
    (hmw : ∀ c ∈ m, isWordChar c = true) :
    parseLine ("import ".data ++ (m ++ ('.' :: sub))) = some (.imp (m ++ ('.' :: sub))) := by
  subst hm
  have h0 : isPySpace c0 = false :=
    wordChar_not_pySpace (hmw c0 (List.mem_cons_self c0 m'))
  have hstep : parseLine ("import ".data ++ ((c0 :: m') ++ ('.' :: sub))) =
      (restAfterWs (' ' :: c0 :: (m' ++ ('.' :: sub)))).map PyImport.imp := rfl
  rw [hstep, restAfterWs_cons_space c0 (m' ++ ('.' :: sub)) h0]
  rfl

theorem baseOf_dotted (m sub : Str) (hmw : ∀ c ∈ m, isWordChar c = true) :
    baseOf (m ++ ('.' :: sub)) = lowerStr m := by
  unfold baseOf
  rw [splitOnChar_head_append '.' sub m (fun c hc => wordChar_ne_dot (hmw c hc))]

theorem parseFoldStep_dotted (m sub : Str) (c0 : Char) (m' : Str) (hm : m = c0 :: m')
    (hmw : ∀ c ∈ m, isWordChar c = true) (hsub : ∀ c ∈ sub, isModChar c = true)
    (maps : List (Str × List Str) × List (Str × List Str)) :
    parseFoldStep maps ("import ".data ++ (m ++ ('.' :: sub))) =
      (addToMap maps.1 (lowerStr m) (lowerStr m), maps.2) := by
  have hcomma : ∀ c ∈ m ++ ('.' :: sub), ¬ c = ',' := by
    intro c hc
    rcases List.mem_append.mp hc with h | h
    · exact wordChar_ne_comma (hmw c h)
    · rcases List.mem_cons.mp h with h | h
      · subst h; decide
      · exact modChar_ne_comma (hsub c h)
  have hws : ∀ c ∈ m ++ ('.' :: sub), isPySpace c = false := by
    intro c hc
    rcases List.mem_append.mp hc with h | h
    · exact wordChar_not_pySpace (hmw c h)
    · rcases List.mem_cons.mp h with h | h
      · subst h; decide
      · exact modChar_not_pySpace (hsub c h)
  unfold parseFoldStep
  rw [parseLine_dotted m sub c0 m' hm hmw]
  simp only
  rw [splitOnChar_no_sep ',' _ hcomma]
  simp only [List.map_cons, List.map_nil, pyStrip_no_ws _ hws,
    List.foldl_cons, List.foldl_nil]
  unfold impStep
  rw [splitAs_no_ws _ hws]
  simp only [List.map_cons, List.map_nil, pyStrip_no_ws _ hws, List.headD_cons]
  rw [baseOf_dotted m sub hmw]
  rfl

/-- A dotted plain import line `import m.sub` puts the module's lower-cased
base name into `imports_map` as its own alias. -/
theorem parse_dotted_entry (t m sub : Str) (c0 : Char) (m' : Str) (hm : m = c0 :: m')
    (hmw : ∀ c ∈ m, isWordChar c = true) (hsub : ∀ c ∈ sub, isModChar c = true)
    (hline : ("import ".data ++ (m ++ ('.' :: sub))) ∈ splitLines t) :
    lowerStr m ∈ lookupL (parse_imports_from_py t).1 (lowerStr m) := by
  unfold parse_imports_from_py
  refine foldl_establish parseFoldStep
    (fun maps => lowerStr m ∈ lookupL maps.1 (lowerStr m))
    ("import ".data ++ (m ++ ('.' :: sub))) (splitLines t) ?_ ?_ ([], []) hline
  · intro maps line _ hmem
    unfold parseFoldStep
    split
    · exact hmem
    · exact hmem
    · refine foldl_preserve impStep
        (fun im => lowerStr m ∈ lookupL im (lowerStr m)) _ ?_ maps.1 hmem
      intro im part _ him
      cases hget : (List.map pyStrip (splitAs part)).get? 1 with
      | none =>
        simp only [impStep, hget]
        exact lookupL_addToMap_mono _ _ _ _ _ him
      | some al =>
        simp only [impStep, hget]
        exact lookupL_addToMap_mono _ _ _ _ _ him
  · intro maps
    rw [parseFoldStep_dotted m sub c0 m' hm hmw hsub maps]
    exact lookupL_addToMap_self maps.1 (lowerStr m) (lowerStr m)

/-! ### Completeness of the word-boundary usage search -/

/-- The character immediately before the scanned suffix (the `prev` the
scanner will carry when it reaches the end of `A`). -/
def lastOr : Str → Option Char → Option Char
  | [], prev => prev
  | a :: rest, _ => lastOr rest (some a)

theorem lastOr_append_singleton (c : Char) :
    ∀ (Z : Str) (prev : Option Char), lastOr (Z ++ [c]) prev = some c := by
  intro Z
  induction Z with
  | nil => intro prev; rfl
  | cons a rest ih => intro prev; exact ih (some a)

theorem searchAux_complete (pat : Str) (target : Char) (B : Str)
    (hpat : pat ≠ []) (hws : wsThen target B = true) :
    ∀ (A : Str) (prev : Option Char),
      bBoundary (lastOr A prev) (pat ++ B) = true →
      searchAux pat target prev (A ++ (pat ++ B)) = true := by
  intro A
  induction A with
  | nil =>
    intro prev hb
    obtain ⟨p0, pr, hp⟩ := List.exists_cons_of_ne_nil hpat
    rw [List.nil_append]
    have hcons : pat ++ B = p0 :: (pr ++ B) := by rw [hp]; rfl
    rw [hcons]
    unfold searchAux
    have h1 : bBoundary prev (p0 :: (pr ++ B)) = true := by rw [← hcons]; exact hb
    have h2 : pat.isPrefixOf (p0 :: (pr ++ B)) = true := by
      rw [← hcons]
      exact List.isPrefixOf_iff_prefix.mpr (List.prefix_append pat B)
    have h3 : wsThen target ((p0 :: (pr ++ B)).drop pat.length) = true := by
      rw [← hcons, List.drop_left]
      exact hws
    rw [h1, h2, h3]
    rfl
  | cons a A' ih =>
    intro prev hb
    have hassoc : (a :: A') ++ (pat ++ B) = a :: (A' ++ (pat ++ B)) := rfl
    rw [hassoc]
    unfold searchAux
    have : searchAux pat target (some a) (A' ++ (pat ++ B)) = true := ih (some a) hb
    rw [this]
    simp

theorem searchBoundaryPat_complete (pat : Str) (target : Char) (A B : Str)
    (hpat : pat ≠ []) (hws : wsThen target B = true)
    (hb : bBoundary (lastOr A none) (pat ++ B) = true) :
    searchBoundaryPat pat target (A ++ (pat ++ B)) = true :=
  searchAux_complete pat target B hpat hws A none hb

/-- C10.  A `.py` file whose text holds a dotted plain import `import m.sub`
of a data-science module gets that library credited, whether or not the
module is ever used afterwards: the usage scan runs over the whole file
text, and the import line itself matches `\b m \s* \.`. -/
theorem C10_dotted_import_credited
    (paths : List String) (contents : String → Option String)
    (f t key label : String) (sub : Str) (c0 : Char) (m' : Str)
    (hf : f ∈ paths)
    (hpy : endsWithStr (strOf ".py") (lowerStr f.data) = true)
    (hc : contents f = some t) (ht : ¬ t.data = [])
    (hkey : (key, label) ∈ DS_LIB_KEYWORDS)
    (hm : key.data = c0 :: m')
    (hmw : ∀ c ∈ key.data, isWordChar c = true)
    (hml : lowerStr key.data = key.data)
    (hsub : ∀ c ∈ sub, isModChar c = true)
    (hline : ("import ".data ++ (key.data ++ ('.' :: sub))) ∈ splitLines t.data) :
    label ∈ detect_datasci paths contents := by
  have hcand : f ∈ candidateFiles paths := py_mem_candidateFiles paths f hf hpy
  obtain ⟨htext, himp, -⟩ := fetch_py_file paths contents f t hcand hc ht hpy
  have hentry := parse_dotted_entry t.data key.data sub c0 m' hm hmw hsub hline
  have halias := himp (lowerStr key.data) (lowerStr key.data) hentry
  obtain ⟨pre, post, hdec⟩ :=
    mem_splitOnChar_infix '\n' ("import ".data ++ (key.data ++ ('.' :: sub))) t.data hline
  have hshape : t.data =
      (pre ++ "import ".data) ++ (key.data ++ ('.' :: (sub ++ post))) := by
    rw [hdec]
    simp [List.append_assoc]
  have hsearch : searchBoundaryPat key.data '.' t.data = true := by
    rw [hshape]
    refine searchBoundaryPat_complete key.data '.' (pre ++ "import ".data)
      ('.' :: (sub ++ post)) (by rw [hm]; exact List.cons_ne_nil c0 m') ?_ ?_
    · simp [wsThen, List.dropWhile_cons, show isPySpace '.' = false from by decide]
    · have hA : pre ++ "import ".data = (pre ++ "import".data) ++ [' '] := by
        have : ("import ".data : Str) = "import".data ++ [' '] := rfl
        rw [this, List.append_assoc]
      rw [hA, lastOr_append_singleton ' ' (pre ++ "import".data) none]
      rw [hm]
      have hc0 : isWordChar c0 = true := hmw c0 (by rw [hm]; exact List.mem_cons_self c0 m')
      simp [bBoundary, List.cons_append, hc0, show isWordChar ' ' = false from by decide]
  simp only [detect_datasci]
  refine List.mem_map.mpr ⟨(key, label), List.mem_filter.mpr ⟨hkey, ?_⟩, rfl⟩
  unfold ds_used
  have h1 : ((fetchCandidates paths contents).fileTexts.any fun txt =>
      (lookupL (fetchCandidates paths contents).importsAll (lowerStr key.data)).any
        fun a => searchBoundaryPat a '.' txt) = true := by
    rw [List.any_eq_true]
    refine ⟨t.data, htext, ?_⟩
    rw [List.any_eq_true]
    refine ⟨lowerStr key.data, halias, ?_⟩
    rw [hml]
    exact hsearch
  rw [h1]
  rfl

/-- Witness for `C10_dotted_import_credited`: a repository whose only file
is `a.py` containing just `import numpy.linalg` is credited with NumPy. -/
theorem C10_dotted_import_credited_witness :
    "NumPy" ∈ detect_datasci ["a.py"]
      (fun p => if p = "a.py" then some "import numpy.linalg\n" else none) :=
  C10_dotted_import_credited ["a.py"]
    (fun p => if p = "a.py" then some "import numpy.linalg\n" else none)
    "a.py" "import numpy.linalg\n" "numpy" "NumPy" "linalg".data 'n' "umpy".data
    (by decide) (by decide) (by decide) (by decide) (by decide) (by decide)
    (by decide) (by decide) (by decide) (by decide)

/-- C2 (counterexample).  Both directions of the import-plus-usage claim
fail on the code. `a.py` = `import numpy.linalg` imports NumPy and never
references the module again, yet NumPy is added (the usage scan matches
the statement line itself).  `b.py`, which from `sklearn.preprocessing`
pulls in `StandardScaler` and then runs `x = StandardScaler()`, imports and
calls the symbol, yet Scikit-learn is not added (the stored symbol name is
lower-cased while the search over the original text is case-sensitive). -/
theorem C2_counterexample :
    "NumPy" ∈ detect_datasci ["a.py"]
      (fun p => if p = "a.py" then some "import numpy.linalg\n" else none) ∧
    "Scikit-learn" ∉ detect_datasci ["b.py"]
      (fun p => if p = "b.py" then
        some "from sklearn.preprocessing import StandardScaler\nx = StandardScaler()\n"
      else none) := by
  decide

/-- C2 (amended).  A data-science library is added exactly when the usage
regexes fire on the fetched `.py` texts: some recorded import alias occurs
at a word boundary followed by optional whitespace and `.`, or some
recorded (lower-cased) `from`-imported symbol so occurs followed by `(` or
`.` — the whole file texts are searched, import lines included, and the
match is case-sensitive. -/
theorem C2_import_usage_characterization (paths : List String)
    (contents : String → Option String) (label : String) :
    label ∈ detect_datasci paths contents ↔
      ∃ kv ∈ DS_LIB_KEYWORDS, kv.2 = label ∧
        ((∃ t ∈ (fetchCandidates paths contents).fileTexts,
            ∃ a ∈ lookupL (fetchCandidates paths contents).importsAll (lowerStr kv.1.data),
              searchBoundaryPat a '.' t = true) ∨
         (∃ t ∈ (fetchCandidates paths contents).fileTexts,
            ∃ s ∈ lookupL (fetchCandidates paths contents).fromAll (lowerStr kv.1.data),
              searchBoundaryPat s '(' t = true ∨ searchBoundaryPat s '.' t = true)) := by
  simp only [detect_datasci, List.mem_map, List.mem_filter]
  constructor
  · rintro ⟨kv, ⟨hmem, hused⟩, hlab⟩
    refine ⟨kv, hmem, hlab, ?_⟩
    rw [ds_used, Bool.or_eq_true] at hused
    rcases hused with h | h
    · left
      rw [List.any_eq_true] at h
      obtain ⟨t, ht, h⟩ := h
      rw [List.any_eq_true] at h
      obtain ⟨a, ha, h⟩ := h
      exact ⟨t, ht, a, ha, h⟩
    · right
      rw [List.any_eq_true] at h
      obtain ⟨t, ht, h⟩ := h
      rw [List.any_eq_true] at h
      obtain ⟨s, hs, h⟩ := h
      rw [Bool.or_eq_true] at h
      exact ⟨t, ht, s, hs, h⟩
  · rintro ⟨kv, hmem, hlab, h⟩
    refine ⟨kv, ⟨hmem, ?_⟩, hlab⟩
    rw [ds_used, Bool.or_eq_true]
    rcases h with ⟨t, ht, a, ha, h⟩ | ⟨t, ht, s, hs, h⟩
    · left
      rw [List.any_eq_true]
      refine ⟨t, ht, ?_⟩
      rw [List.any_eq_true]
      exact ⟨a, ha, h⟩
    · right
      rw [List.any_eq_true]
      refine ⟨t, ht, ?_⟩
      rw [List.any_eq_true]
      refine ⟨s, hs, ?_⟩
      rw [Bool.or_eq_true]
      exact h

/-- Witness for `C2_import_usage_characterization`: the characterization
applied to a one-file repository whose `m.py` does `import pandas as pd`
and then `pd.read` (import plus attribute-access usage), yielding
Pandas. -/
theorem C2_import_usage_characterization_witness :
    "Pandas" ∈ detect_datasci ["m.py"]
      (fun p => if p = "m.py" then some "import pandas as pd\nx = pd.read\n" else none) :=
  (C2_import_usage_characterization ["m.py"]
    (fun p => if p = "m.py" then some "import pandas as pd\nx = pd.read\n" else none)
    "Pandas").mpr (by decide)

/-! ### Repository discovery and credential ownership (lines 252-288)

`list_repos_for_token` is the paginated HTTP listing; it is abstracted as
the oracle `itemsOf` giving each token's visible repositories.  Items are
structured records (the `try/except KeyError` of lines 265-273 cannot fire
on them).  `repo_set` and `repo_token_map` (a Python set and dict) are a
list and a unique-key association list grown together. -/

structure RepoItem where
  fork : Bool
  ownerLogin : String
  name : String

/-- Line 268: `f"{r['owner']['login']}/{r['name']}"`. -/
def repoStrOf (r : RepoItem) : String := r.ownerLogin ++ "/" ++ r.name

/-- Lines 264-273: fold one token's items into `(repo_set, repo_token_map)`;
forks are skipped, and a repository already in the set is left with its
existing token. -/
def discoverItems (token : String) (st : List String × List (String × String))
    (items : List RepoItem) : List String × List (String × String) :=
  items.foldl
    (fun st r =>
      if r.fork then st
      else
        let s := repoStrOf r
        if s ∈ st.1 then st else (st.1 ++ [s], st.2 ++ [(s, token)]))
    st

/-- `list_all_repos` (lines 252-288), tokens branch: returns the sorted
repository list and the final `repo_token_map`. -/
def list_all_repos (tokens : List String) (itemsOf : String → List RepoItem) :
    List String × List (String × String) :=
  let st := tokens.foldl (fun st tk => discoverItems tk st (itemsOf tk)) ([], [])
  (sortedStrings st.1, st.2)

/-- Python `dict.get`. -/
def lookupTok (m : List (String × String)) (k : String) : Option String :=
  (m.find? (fun kv => kv.1 == k)).map Prod.snd

/-- The token-selection expression `repo_token_map.get(f"{owner}/{repo}")`
shared by `get_repo_default_branch`, `get_tree`, `get_file_content` and the
language-histogram call (lines 293, 302, 310, 404). -/
def repoCallToken (m : List (String × String)) (owner repo : String) : Option String :=
  lookupTok m (owner ++ "/" ++ repo)

/-- Spec-side: the first credential, in supplied order, whose listing holds
a non-fork item for the repository. -/
def firstDiscoverer (tokens : List String) (itemsOf : String → List RepoItem)
    (s : String) : Option String :=
  tokens.find? (fun tk => (itemsOf tk).any (fun r => !r.fork && repoStrOf r == s))

theorem lookupTok_append (m1 m2 : List (String × String)) (x : String) :
    lookupTok (m1 ++ m2) x =
      match lookupTok m1 x with
      | some v => some v
      | none => lookupTok m2 x := by
  induction m1 with
  | nil => simp [lookupTok]
  | cons kv rest ih =>
    by_cases h : (kv.1 == x) = true
    · simp [lookupTok, List.find?, h]
    · have hb : (kv.1 == x) = false := by
        rw [Bool.eq_false_iff]; exact h
      simp only [lookupTok, List.cons_append, List.find?, hb] at ih ⊢
      exact ih

/-- Discovery invariant: the repo set and the token map stay in sync. -/
def DiscSync (st : List String × List (String × String)) : Prop :=
  ∀ x, x ∈ st.1 ↔ (lookupTok st.2 x).isSome

theorem DiscSync_extend (st : List String × List (String × String))
    (r tk : String) (hsync : DiscSync st) :
    DiscSync (st.1 ++ [r], st.2 ++ [(r, tk)]) := by
  intro y
  show y ∈ st.1 ++ [r] ↔ _
  rw [List.mem_append, List.mem_singleton, lookupTok_append]
  constructor
  · intro hy
    cases hl : lookupTok st.2 y with
    | some v => simp
    | none =>
      rcases hy with hy | hy
      · have := (hsync y).mp hy
        rw [hl] at this
        simp at this
      · rw [hy]
        simp [lookupTok, List.find?]
  · intro hy
    cases hl : lookupTok st.2 y with
    | some v => exact Or.inl ((hsync y).mpr (by rw [hl]; simp))
    | none =>
      rw [hl] at hy
      simp only [Option.isSome] at hy
      by_cases hyr : y = r
      · exact Or.inr hyr
      · have hb2 : ((r : String) == y) = false :=
          beq_eq_false_iff_ne.mpr (fun he => hyr he.symm)
        simp [lookupTok, List.find?, hb2] at hy

theorem discoverItems_sync (tk : String) :
    ∀ (items : List RepoItem) (st : List String × List (String × String)),
      DiscSync st → DiscSync (discoverItems tk st items) := by
  intro items
  induction items with
  | nil => intro st h; exact h
  | cons r rest ih =>
    intro st h
    unfold discoverItems
    rw [List.foldl_cons]
    by_cases hf : r.fork
    · simp only [hf, if_true]
      exact ih st h
    · simp only [hf, Bool.false_eq_true, if_false]
      by_cases hmem : repoStrOf r ∈ st.1
      · simp only [hmem, if_true]
        exact ih st h
      · simp only [hmem, if_false]
        exact ih _ (DiscSync_extend st (repoStrOf r) tk h)

theorem discoverItems_lookup_some (tk : String) (x : String) (v : String) :
    ∀ (items : List RepoItem) (st : List String × List (String × String)),
      lookupTok st.2 x = some v →
      lookupTok (discoverItems tk st items).2 x = some v := by
  intro items
  induction items with
  | nil => intro st h; exact h
  | cons r rest ih =>
    intro st h
    unfold discoverItems
    rw [List.foldl_cons]
    by_cases hf : r.fork
    · simp only [hf, if_true]
      exact ih st h
    · simp only [hf, Bool.false_eq_true, if_false]
      by_cases hmem : repoStrOf r ∈ st.1
      · simp only [hmem, if_true]
        exact ih st h
      · simp only [hmem, if_false]
        refine ih _ ?_
        show lookupTok (st.2 ++ [(repoStrOf r, tk)]) x = some v
        rw [lookupTok_append, h]

theorem discoverItems_lookup_none (tk : String) (x : String) :
    ∀ (items : List RepoItem) (st : List String × List (String × String)),
      DiscSync st → lookupTok st.2 x = none →
      lookupTok (discoverItems tk st items).2 x =
        (if items.any (fun r => !r.fork && repoStrOf r == x) then some tk else none) := by
  intro items
  induction items with
  | nil => intro st _ h; simpa [discoverItems] using h
  | cons r rest ih =>
    intro st hsync h
    unfold discoverItems
    rw [List.foldl_cons, List.any_cons]
    by_cases hf : r.fork
    · simp only [hf, Bool.not_true, Bool.false_and, Bool.false_or]
      simp only [if_true]
      exact ih st hsync h
    · simp only [hf, Bool.false_eq_true, if_false, Bool.not_false, Bool.true_and]
      by_cases hmem : repoStrOf r ∈ st.1
      · simp only [hmem, if_true]
        have hx : ((repoStrOf r : String) == x) = false := by
          rw [beq_eq_false_iff_ne]
          intro he
          have := (hsync (repoStrOf r)).mp hmem
          rw [he, h] at this
          simp at this
        rw [hx, Bool.false_or]
        exact ih st hsync h
      · simp only [hmem, if_false]
        by_cases hxr : (repoStrOf r : String) = x
        · have hb : ((repoStrOf r : String) == x) = true := beq_iff_eq.mpr hxr
          rw [hb, Bool.true_or]
          simp only [if_true]
          refine discoverItems_lookup_some tk x tk rest _ ?_
          show lookupTok (st.2 ++ [(repoStrOf r, tk)]) x = some tk
          rw [lookupTok_append, h, hxr]
          simp [lookupTok, List.find?]
        · have hb : ((repoStrOf r : String) == x) = false := beq_eq_false_iff_ne.mpr hxr
          rw [hb, Bool.false_or]
          have hsync2 : DiscSync (st.1 ++ [repoStrOf r], st.2 ++ [(repoStrOf r, tk)]) :=
            DiscSync_extend st (repoStrOf r) tk hsync
          have h2 : lookupTok (st.2 ++ [(repoStrOf r, tk)]) x = none := by
            rw [lookupTok_append, h]
            simp [lookupTok, List.find?, hb]
          exact ih _ hsync2 h2

/-- C4.  The repository-to-credential map built by discovery assigns every
repository the first credential, in supplied order, that discovered it;
the per-repository calls all select their token by this very lookup
(`repoCallToken`), so they use exactly that credential. -/
theorem C4_first_credential_owns (tokens : List String)
    (itemsOf : String → List RepoItem) (owner repo : String) :
    repoCallToken (list_all_repos tokens itemsOf).2 owner repo =
      firstDiscoverer tokens itemsOf (owner ++ "/" ++ repo) := by
  set x := owner ++ "/" ++ repo with hx
  have hpres : ∀ (l : List String) (st2 : List String × List (String × String)) (tk : String),
      lookupTok st2.2 x = some tk →
      lookupTok (l.foldl (fun st tk2 => discoverItems tk2 st (itemsOf tk2)) st2).2 x
        = some tk := by
    intro l
    induction l with
    | nil => intro st2 tk h2; exact h2
    | cons tk2 rest2 ih2 =>
      intro st2 tk h2
      rw [List.foldl_cons]
      exact ih2 _ tk (discoverItems_lookup_some tk2 x tk (itemsOf tk2) st2 h2)
  have main : ∀ (tks : List String) (st : List String × List (String × String)),
      DiscSync st → lookupTok st.2 x = none →
      lookupTok (tks.foldl (fun st tk => discoverItems tk st (itemsOf tk)) st).2 x =
        firstDiscoverer tks itemsOf x := by
    intro tks
    induction tks with
    | nil => intro st _ h; simpa [firstDiscoverer] using h
    | cons tk rest ih =>
      intro st hsync h
      rw [List.foldl_cons]
      unfold firstDiscoverer
      by_cases hany : ((itemsOf tk).any fun r => !r.fork && repoStrOf r == x) = true
      · have hfind : List.find?
            (fun tk => (itemsOf tk).any fun r => !r.fork && repoStrOf r == x)
            (tk :: rest) = some tk := by
          rw [List.find?_cons_of_pos]
          exact hany
        rw [hfind]
        have hstep := discoverItems_lookup_none tk x (itemsOf tk) st hsync h
        rw [hany] at hstep
        simp only [if_true] at hstep
        exact hpres rest _ tk hstep
      · have hfind : List.find?
            (fun tk => (itemsOf tk).any fun r => !r.fork && repoStrOf r == x)
            (tk :: rest) = List.find?
            (fun tk => (itemsOf tk).any fun r => !r.fork && repoStrOf r == x) rest := by
          rw [List.find?_cons_of_neg]
          simpa using hany
        rw [hfind]
        rw [Bool.not_eq_true] at hany
        have hstep := discoverItems_lookup_none tk x (itemsOf tk) st hsync h
        rw [hany] at hstep
        simp only [Bool.false_eq_true, if_false] at hstep
        exact ih _ (discoverItems_sync tk (itemsOf tk) st hsync) hstep
  show lookupTok (list_all_repos tokens itemsOf).2 x = firstDiscoverer tokens itemsOf x
  unfold list_all_repos
  exact main tokens ([], []) (fun y => by simp [lookupTok, List.find?]) rfl

/-! ### Per-repository fetchers (lines 291-325)

The HTTP layer is an oracle keyed by the selected token; `none` stands for
a raised exception (network error or `raise_for_status`), `some` for a
parsed response.  `get_file_content`'s `dec` argument is the library
composite `base64.b64decode(...).decode("utf-8", errors="ignore")`
(returning `none` when decoding raises, which the surrounding `try` turns
into a `None` result). -/

/-- `get_repo_default_branch` (lines 291-298): the successful response
carries the optional `default_branch` field; `data.get("default_branch",
"main")`, and `"main"` on any exception. -/
def get_repo_default_branch (m : List (String × String)) (owner repo : String)
    (api : Option String → Option (Option String)) : String :=
  match api (repoCallToken m owner repo) with
  | none => "main"
  | some data => data.getD "main"

/-- `get_tree` (lines 300-306): the successful response carries the
optional `tree` field; an exception yields `{"tree": []}`. -/
def get_tree (m : List (String × String)) (owner repo : String)
    (api : Option String → Option (Option (List TreeEntry))) :
    Option (List TreeEntry) :=
  match api (repoCallToken m owner repo) with
  | none => some []
  | some j => j

/-- An HTTP response for the contents endpoint: status code plus the
optional `encoding` and `content` JSON fields. -/
structure ContentResp where
  status : Nat
  encoding : Option String
  content : Option String

/-- `get_file_content` (lines 308-325). -/
def get_file_content (m : List (String × String)) (owner repo : String)
    (resp : Option String → Option ContentResp) (dec : String → Option String) :
    Option String :=
  match resp (repoCallToken m owner repo) with
  | none => none
  | some r =>
    if r.status = 200 then
      match r.encoding, r.content with
      | some "base64", some c => dec c
      | _, _ => some (r.content.getD "")
    else none

/-- C7.  Every per-repository fetch absorbs failure: default-branch
resolution falls back to `"main"` on an exception or a missing field, tree
listing yields the empty listing on an exception, and file-content
retrieval yields the decoded text for a base64 response, the raw content
field otherwise, and `none` on a non-success status or an exception — and
the detection loop treats `none` (and empty) content as the file being
absent, leaving its state unchanged. -/
theorem C7_failures_absorbed (m : List (String × String)) (owner repo : String) :
    (∀ api, api (repoCallToken m owner repo) = none →
      get_repo_default_branch m owner repo api = "main") ∧
    (∀ api, api (repoCallToken m owner repo) = some none →
      get_repo_default_branch m owner repo api = "main") ∧
    (∀ api db, api (repoCallToken m owner repo) = some (some db) →
      get_repo_default_branch m owner repo api = db) ∧
    (∀ api, api (repoCallToken m owner repo) = none →
      get_tree m owner repo api = some []) ∧
    (∀ resp dec, resp (repoCallToken m owner repo) = none →
      get_file_content m owner repo resp dec = none) ∧
    (∀ resp dec r, resp (repoCallToken m owner repo) = some r → ¬ r.status = 200 →
      get_file_content m owner repo resp dec = none) ∧
    (∀ resp dec r c, resp (repoCallToken m owner repo) = some r → r.status = 200 →
      r.encoding = some "base64" → r.content = some c →
      get_file_content m owner repo resp dec = dec c) ∧
    (∀ resp dec r enc, resp (repoCallToken m owner repo) = some r → r.status = 200 →
      r.encoding = some enc → ¬ enc = "base64" →
      get_file_content m owner repo resp dec = some (r.content.getD "")) ∧
    (∀ st p, processFile st p none = st) := by
  refine ⟨?_, ?_, ?_, ?_, ?_, ?_, ?_, ?_, ?_⟩
  · intro api h; unfold get_repo_default_branch; rw [h]
  · intro api h; unfold get_repo_default_branch; rw [h]; rfl
  · intro api db h; unfold get_repo_default_branch; rw [h]; rfl
  · intro api h; unfold get_tree; rw [h]
  · intro resp dec h; unfold get_file_content; rw [h]
  · intro resp dec r h hs
    unfold get_file_content
    rw [h]
    simp only [if_neg hs]
  · intro resp dec r c h hs henc hcont
    unfold get_file_content
    rw [h]
    simp only [if_pos hs, henc, hcont]
  · intro resp dec r enc h hs henc hne
    unfold get_file_content
    rw [h]
    simp only [if_pos hs, henc]
    split
    · rename_i heq _
      injection heq with heq2
      exact absurd heq2 hne
    · rfl
  · intro st p; rfl

/-- Witness for `C7_failures_absorbed`: an always-raising metadata call
resolves the default branch to `main`. -/
theorem C7_failures_absorbed_witness :
    get_repo_default_branch [] "o" "r" (fun _ => none) = "main" :=
  (C7_failures_absorbed [] "o" "r").1 (fun _ => none) rfl

/-! ### README splice (lines 729-747) -/

def START_MARKER : Str := "<!-- SKILLS-START -->".data

def END_MARKER : Str := "<!-- SKILLS-END -->".data

/-- Python `text.split(pat, 1)`: split at the first occurrence of `pat`
(`none` when `pat` does not occur). -/
def splitOnce (pat : Str) : Str → Option (Str × Str)
  | [] => if pat.isPrefixOf ([] : Str) then some ([], []) else none
  | c :: rest =>
    if pat.isPrefixOf (c :: rest) then some ([], (c :: rest).drop pat.length)
    else (splitOnce pat rest).map (fun pr => (c :: pr.1, pr.2))

/-- Python `pat in text`. -/
def containsPat (pat text : Str) : Bool := (splitOnce pat text).isSome

/-- Lines 733-747.  `existing = none` models a missing `README.md`; the
result is the file content written back.  A `none` result models the
`ValueError` Python would raise when both markers occur but no `END`
follows the first `START`. -/
def updateReadme (existing : Option Str) (new_sec : Str) : Option Str :=
  match existing with
  | none => some (START_MARKER ++ '\n' :: new_sec ++ '\n' :: END_MARKER ++ ['\n'])
  | some text =>
    if containsPat START_MARKER text && containsPat END_MARKER text then
      match splitOnce START_MARKER text with
      | none => none
      | some br =>
        match splitOnce END_MARKER br.2 with
        | none => none
        | some ea =>
          some (br.1 ++ START_MARKER ++ '\n' :: new_sec ++ '\n' :: END_MARKER ++ ea.2)
    else
      some (text ++ '\n' :: '\n' :: START_MARKER ++ '\n' :: new_sec ++ '\n' ::
        END_MARKER ++ ['\n'])

theorem splitOnce_isSome_iff (pat : Str) :
    ∀ s : Str, (splitOnce pat s).isSome = true ↔ pat <:+: s := by
  intro s
  induction s with
  | nil =>
    unfold splitOnce
    by_cases h : pat.isPrefixOf ([] : Str)
    · simp only [h, if_true, Option.isSome_some, true_iff]
      have := List.isPrefixOf_iff_prefix.mp h
      exact this.isInfix
    · simp only [h, Bool.false_eq_true, if_false, Option.isSome_none, List.infix_nil]
      constructor
      · intro hfalse; cases hfalse
      · intro he
        subst he
        exact absurd (List.isPrefixOf_iff_prefix.mpr List.nil_prefix) h
  | cons c rest ih =>
    unfold splitOnce
    by_cases h : pat.isPrefixOf (c :: rest)
    · simp only [h, if_true, Option.isSome_some, true_iff]
      exact (List.isPrefixOf_iff_prefix.mp h).isInfix
    · have hb : pat.isPrefixOf (c :: rest) = false := by
        rw [Bool.eq_false_iff]; exact h
      simp only [hb, Bool.false_eq_true, if_false]
      rw [show (Option.map (fun pr => (c :: pr.1, pr.2)) (splitOnce pat rest)).isSome =
        (splitOnce pat rest).isSome from by cases splitOnce pat rest <;> rfl]
      rw [ih, List.infix_cons_iff]
      constructor
      · intro hi; exact Or.inr hi
      · intro hi
        rcases hi with hi | hi
        · exact absurd (List.isPrefixOf_iff_prefix.mpr hi) h
        · exact hi

theorem splitOnce_prefix (pat b : Str) (c0 : Char) (pr : Str) (hp : pat = c0 :: pr) :
    splitOnce pat (pat ++ b) = some ([], b) := by
  have hcons : pat ++ b = c0 :: (pr ++ b) := by rw [hp]; rfl
  rw [hcons]
  unfold splitOnce
  have hpre : pat.isPrefixOf (c0 :: (pr ++ b)) = true := by
    rw [← hcons]
    exact List.isPrefixOf_iff_prefix.mpr (List.prefix_append pat b)
  rw [hpre]
  simp only [if_true, Option.some.injEq]
  rw [← hcons, List.drop_left]

theorem splitOnce_first (pat b : Str) (c0 : Char) (pr : Str) (hp : pat = c0 :: pr) :
    ∀ a : Str, ¬ pat <:+: (a ++ pat.dropLast) →
      splitOnce pat (a ++ (pat ++ b)) = some (a, b) := by
  intro a
  induction a with
  | nil =>
    intro _
    rw [List.nil_append]
    exact splitOnce_prefix pat b c0 pr hp
  | cons c a' ih =>
    intro hno
    have hne : pat ≠ [] := by rw [hp]; exact List.cons_ne_nil c0 pr
    have hsplit : pat = pat.dropLast ++ [pat.getLast hne] :=
      (List.dropLast_append_getLast hne).symm
    have hshape : (c :: a') ++ (pat ++ b) =
        ((c :: a') ++ pat.dropLast) ++ (pat.getLast hne :: b) := by
      conv_lhs => rw [hsplit]
      simp [List.append_assoc]
    have hnp : pat.isPrefixOf ((c :: a') ++ (pat ++ b)) = false := by
      rw [Bool.eq_false_iff]
      intro hpre
      apply hno
      have hpre' := List.isPrefixOf_iff_prefix.mp hpre
      have hlen : pat.length ≤ ((c :: a') ++ pat.dropLast).length := by
        simp only [List.length_append, List.length_cons, List.length_dropLast]
        have : 1 ≤ pat.length := by
          rw [hp]; simp
        omega
      have htake : pat = (((c :: a') ++ pat.dropLast) ++ (pat.getLast hne :: b)).take
          pat.length := by
        rw [← hshape]
        exact List.prefix_iff_eq_take.mp hpre'
      rw [List.take_append_of_le_length hlen] at htake
      have hpref2 : pat <+: (c :: a') ++ pat.dropLast := by
        have htp := List.take_prefix pat.length ((c :: a') ++ pat.dropLast)
        rw [← htake] at htp
        exact htp
      exact hpref2.isInfix
    have hstep : (c :: a') ++ (pat ++ b) = c :: (a' ++ (pat ++ b)) := rfl
    rw [hstep]
    unfold splitOnce
    rw [← hstep, hnp]
    simp only [Bool.false_eq_true, if_false]
    have hno' : ¬ pat <:+: (a' ++ pat.dropLast) := by
      intro hi
      exact hno (List.infix_cons hi)
    rw [ih hno']
    rfl

/-- C6.  The README splice: (1) with content before the start marker and
after the end marker — neither marker occurring earlier than its intended
occurrence — only the text strictly between the markers is replaced and
all surrounding bytes survive; (2) a missing document is created holding
only the markers around the new section; (3) a document lacking the
markers is extended at its end, its prior content intact. -/
theorem C6_readme_splice (pre mid post new_sec : Str)
    (hpre : ¬ START_MARKER <:+: (pre ++ START_MARKER.dropLast))
    (hmid : ¬ END_MARKER <:+: (mid ++ END_MARKER.dropLast)) :
    (updateReadme (some (pre ++ (START_MARKER ++ (mid ++ (END_MARKER ++ post))))) new_sec =
      some (pre ++ START_MARKER ++ '\n' :: new_sec ++ '\n' :: END_MARKER ++ post)) ∧
    (updateReadme none new_sec =
      some (START_MARKER ++ '\n' :: new_sec ++ '\n' :: END_MARKER ++ ['\n'])) ∧
    (∀ text : Str, ¬ (START_MARKER <:+: text ∧ END_MARKER <:+: text) →
      updateReadme (some text) new_sec =
        some (text ++ '\n' :: '\n' :: START_MARKER ++ '\n' :: new_sec ++ '\n' ::
          END_MARKER ++ ['\n'])) := by
  refine ⟨?_, rfl, ?_⟩
  · have hS : splitOnce START_MARKER
        (pre ++ (START_MARKER ++ (mid ++ (END_MARKER ++ post)))) =
        some (pre, mid ++ (END_MARKER ++ post)) :=
      splitOnce_first START_MARKER (mid ++ (END_MARKER ++ post)) '<'
        "!-- SKILLS-START -->".data rfl pre hpre
    have hE : splitOnce END_MARKER (mid ++ (END_MARKER ++ post)) = some (mid, post) :=
      splitOnce_first END_MARKER post '<' "!-- SKILLS-END -->".data rfl mid hmid
    have hcS : containsPat START_MARKER
        (pre ++ (START_MARKER ++ (mid ++ (END_MARKER ++ post)))) = true := by
      unfold containsPat
      rw [hS]
      rfl
    have hcE : containsPat END_MARKER
        (pre ++ (START_MARKER ++ (mid ++ (END_MARKER ++ post)))) = true := by
      rw [containsPat, splitOnce_isSome_iff]
      refine ⟨pre ++ START_MARKER ++ mid, post, ?_⟩
      simp [List.append_assoc]
    simp only [updateReadme, hcS, hcE, Bool.and_self, if_true, hS, hE]
  · intro text hno
    have hfalse : (containsPat START_MARKER text && containsPat END_MARKER text) = false := by
      by_cases h1 : containsPat START_MARKER text = true
      · by_cases h2 : containsPat END_MARKER text = true
        · exact absurd ⟨(splitOnce_isSome_iff _ text).mp h1,
            (splitOnce_isSome_iff _ text).mp h2⟩ hno
        · rw [h1, Bool.eq_false_iff.mpr h2]; rfl
      · rw [Bool.eq_false_iff.mpr h1]; rfl
    simp only [updateReadme, hfalse, Bool.false_eq_true, if_false]

/-- Witness for `C6_readme_splice`: a two-line document around the marker
pair keeps its surroundings byte-for-byte while the marked region is
replaced. -/
theorem C6_readme_splice_witness :
    updateReadme (some ("before\n".data ++ (START_MARKER ++ ("old".data ++
        (END_MARKER ++ "\nafter".data))))) "NEW".data =
      some ("before\n".data ++ START_MARKER ++ '\n' :: "NEW".data ++ '\n' ::
        END_MARKER ++ "\nafter".data) :=
  (C6_readme_splice "before\n".data "old".data "\nafter".data "NEW".data
    (by decide) (by decide)).1

/-! ### Aggregation and rendering (lines 190-198, 628-727)

A Python `Counter` is an insertion-ordered association list of counts;
`most_common()` is Python's stable `sorted` by descending count (equal
counts keep insertion order). -/

abbrev PyCounter := List (String × Nat)

/-- `counter[name] += 1`. -/
def counterAdd (c : PyCounter) (k : String) : PyCounter :=
  if (c.find? (fun kv => kv.1 == k)).isSome then
    c.map (fun kv => if kv.1 = k then (kv.1, kv.2 + 1) else kv)
  else c ++ [(k, 1)]

/-- `Counter.most_common()`. -/
def most_common (c : PyCounter) : PyCounter :=
  stableSort (fun y x => decide (x.2 ≤ y.2)) c

/-- The seven fixed categories, in the shared insertion order of
`category_map` (lines 190-198) and `order_of_categories` (lines 701-709). -/
def CATEGORY_NAMES : List String :=
  ["Programming languages", "Frontend development", "Data Science & AI",
   "Misc tools", "Services & Frameworks", "Databases", "DevOps"]

abbrev CategoryMap := List (String × PyCounter)

def initCategoryMap : CategoryMap := CATEGORY_NAMES.map (fun n => (n, []))

/-- `add_skill` (lines 672-680); the update only ever targets one of the
seven existing keys, modelled as a key-preserving map. -/
def add_skill (cm : CategoryMap) (category name : String) : CategoryMap :=
  if name ∈ PACKAGE_MANAGERS then cm
  else if name ∈ FORBIDDEN_SKILLS then cm
  else if category = "Programming languages" ∧ (name = "HCL" ∨ name = "VBA") then cm
  else cm.map (fun kv => if kv.1 = category then (kv.1, counterAdd kv.2 name) else kv)

/-- The global per-category frequency tables of lines 643-670, taken here
as the input of the display stage. -/
structure Aggregate where
  languages : PyCounter
  frontend : PyCounter
  datasci : PyCounter
  services : PyCounter
  dbs : PyCounter
  devops : PyCounter

/-- One of the six loops of lines 682-698. -/
def fillCategory (cm : CategoryMap) (cat : String) (c : PyCounter) : CategoryMap :=
  (most_common c).foldl (fun cm kv => add_skill cm cat kv.1) cm

/-- Lines 682-698 in order. -/
def buildCategoryMap (agg : Aggregate) : CategoryMap :=
  fillCategory (fillCategory (fillCategory (fillCategory (fillCategory (fillCategory
    initCategoryMap
    "Programming languages" agg.languages)
    "Frontend development" agg.frontend)
    "Data Science & AI" agg.datasci)
    "Services & Frameworks" agg.services)
    "Databases" agg.dbs)
    "DevOps" agg.devops

def HEX_DIGITS : Str :=
  ['0', '1', '2', '3', '4', '5', '6', '7', '8', '9', 'A', 'B', 'C', 'D', 'E', 'F']

/-- `urllib.parse.quote` on one character (ASCII model; safe characters are
letters, digits, `_.-~` and the default-safe `/`). -/
def quoteChar (c : Char) : Str :=
  if c.isAlphanum || c = '_' || c = '.' || c = '-' || c = '~' || c = '/' then [c]
  else ['%', HEX_DIGITS.getD (c.toNat / 16) '0', HEX_DIGITS.getD (c.toNat % 16) '0']

def pyQuote (s : Str) : Str := s.flatMap quoteChar

/-- `badge_url_for` (lines 628-631). -/
def badge_url_for (skill : String) : Str :=
  "https://img.shields.io/badge/".data ++ pyQuote ('-' :: skill.data) ++
    "-000?&logo=".data ++ pyQuote skill.data

/-- `build_badge_md` (lines 633-635). -/
def build_badge_md (skill : String) : Str :=
  "![".data ++ skill.data ++ "](".data ++ badge_url_for skill ++ ")".data

/-- Python `sep.join`. -/
def joinSep (sep : Str) : List Str → Str
  | [] => []
  | [x] => x
  | x :: xs => x ++ sep ++ joinSep sep xs

/-- Line 712: `category_map.get(cat, Counter())`. -/
def lookupCounter (cm : CategoryMap) (cat : String) : PyCounter :=
  ((cm.find? (fun kv => kv.1 == cat)).map Prod.snd).getD []

/-- Lines 711-722: one category's markdown section (`none` when skipped
because the counter, or the badge list, is empty). -/
def sectionFor (cm : CategoryMap) (cat : String) : Option Str :=
  let counter := lookupCounter cm cat
  if counter.isEmpty then none
  else
    let items := (most_common counter).map Prod.fst
    let badges := items.map build_badge_md
    if badges.isEmpty then none
    else some ("### ".data ++ cat.data ++ "\n\n".data ++ joinSep [' '] badges ++ ['\n'])

def buildSections (cm : CategoryMap) : List Str :=
  CATEGORY_NAMES.filterMap (sectionFor cm)

/-- Lines 724-727: the full generated region content. -/
def new_section (agg : Aggregate) : Str :=
  let sections := buildSections (buildCategoryMap agg)
  if sections.isEmpty then "## üõ†Ô∏è My Skills\n\n_No detected skills._\n".data
  else "## üõ†Ô∏è My Skills\n\n".data ++ joinSep "\n\n".data sections

/-! ### The exclusion invariant -/

def skillAllowed (cat name : String) : Prop :=
  name ∉ PACKAGE_MANAGERS ∧ name ∉ FORBIDDEN_SKILLS ∧
    (cat = "Programming languages" → ¬ (name = "HCL" ∨ name = "VBA"))

theorem counterAdd_keys (c : PyCounter) (k : String) (kv : String × Nat)
    (h : kv ∈ counterAdd c k) : kv.1 = k ∨ ∃ kv0 ∈ c, kv.1 = kv0.1 := by
  unfold counterAdd at h
  split at h
  · obtain ⟨kv0, hkv0, heq⟩ := List.mem_map.mp h
    by_cases he : kv0.1 = k
    · rw [if_pos he] at heq
      exact Or.inr ⟨kv0, hkv0, by rw [← heq]⟩
    · rw [if_neg he] at heq
      exact Or.inr ⟨kv0, hkv0, by rw [← heq]⟩
  · rcases List.mem_append.mp h with h | h
    · exact Or.inr ⟨kv, h, rfl⟩
    · rw [List.mem_singleton] at h
      subst h
      exact Or.inl rfl

def CMInv (cm : CategoryMap) : Prop :=
  ∀ e ∈ cm, ∀ kv ∈ e.2, skillAllowed e.1 kv.1

theorem add_skill_inv (cm : CategoryMap) (cat name : String) (h : CMInv cm) :
    CMInv (add_skill cm cat name) := by
  unfold add_skill
  by_cases h1 : name ∈ PACKAGE_MANAGERS
  · rw [if_pos h1]; exact h
  · rw [if_neg h1]
    by_cases h2 : name ∈ FORBIDDEN_SKILLS
    · rw [if_pos h2]; exact h
    · rw [if_neg h2]
      by_cases h3 : cat = "Programming languages" ∧ (name = "HCL" ∨ name = "VBA")
      · rw [if_pos h3]; exact h
      · rw [if_neg h3]
        intro e he kv hkv
        obtain ⟨e0, he0, heq⟩ := List.mem_map.mp he
        by_cases hc : e0.1 = cat
        · rw [if_pos hc] at heq
          rw [← heq] at hkv ⊢
          simp only at hkv ⊢
          rcases counterAdd_keys e0.2 name kv hkv with hk | ⟨kv0, hkv0, hk⟩
          · rw [hk, hc]
            exact ⟨h1, h2, fun hpl hor => h3 ⟨hpl, hor⟩⟩
          · rw [hk]
            exact h e0 he0 kv0 hkv0
        · rw [if_neg hc] at heq
          rw [← heq] at hkv ⊢
          exact h e0 he0 kv hkv

theorem initCategoryMap_inv : CMInv initCategoryMap := by
  intro e he kv hkv
  obtain ⟨n, _, heq⟩ := List.mem_map.mp he
  rw [← heq] at hkv
  cases hkv

theorem fillCategory_inv (cm : CategoryMap) (cat : String) (c : PyCounter)
    (h : CMInv cm) : CMInv (fillCategory cm cat c) :=
  foldl_preserve _ CMInv _ (fun cm2 kv _ hinv => add_skill_inv cm2 cat kv.1 hinv) cm h

/-- C5.  No package-manager or forbidden-display name ever reaches a
rendered category; `HCL`/`VBA` are dropped from the language category
alone, and for any other category `add_skill` performs the plain increment
even for those names. -/
theorem C5_exclusions (agg : Aggregate) :
    (∀ cat : String,
      ∀ name ∈ (most_common (lookupCounter (buildCategoryMap agg) cat)).map Prod.fst,
        name ∉ PACKAGE_MANAGERS ∧ name ∉ FORBIDDEN_SKILLS ∧
          (cat = "Programming languages" → ¬ (name = "HCL" ∨ name = "VBA"))) ∧
    (∀ (cm : CategoryMap) (cat name : String), ¬ cat = "Programming languages" →
      name ∉ PACKAGE_MANAGERS → name ∉ FORBIDDEN_SKILLS →
      add_skill cm cat name =
        cm.map (fun kv => if kv.1 = cat then (kv.1, counterAdd kv.2 name) else kv)) := by
  constructor
  · intro cat name hname
    have hinv : CMInv (buildCategoryMap agg) := by
      unfold buildCategoryMap
      exact fillCategory_inv _ _ _ (fillCategory_inv _ _ _ (fillCategory_inv _ _ _
        (fillCategory_inv _ _ _ (fillCategory_inv _ _ _ (fillCategory_inv _ _ _
          initCategoryMap_inv)))))
    obtain ⟨kv, hkv, hfst⟩ := List.mem_map.mp hname
    rw [most_common, mem_stableSort] at hkv
    cases hf : (buildCategoryMap agg).find? (fun kv => kv.1 == cat) with
    | none =>
      rw [lookupCounter, hf] at hkv
      cases hkv
    | some e =>
      rw [lookupCounter, hf] at hkv
      have he : e ∈ buildCategoryMap agg := List.mem_of_find?_eq_some hf
      have hpred := List.find?_some hf
      have hkey : e.1 = cat := beq_iff_eq.mp hpred
      have := hinv e he kv hkv
      rw [hkey, hfst] at this
      exact this
  · intro cm cat name hcat h1 h2
    unfold add_skill
    rw [if_neg h1, if_neg h2, if_neg (fun hand => hcat hand.1)]

/-- Witness for `C5_exclusions`: with one repository showing Docker, the
DevOps category renders `Docker`, which is neither a package manager nor a
forbidden skill, and the language-noise exclusion does not concern it. -/
theorem C5_exclusions_witness :
    "Docker" ∉ PACKAGE_MANAGERS ∧ "Docker" ∉ FORBIDDEN_SKILLS ∧
      ("DevOps" = "Programming languages" → ¬ ("Docker" = "HCL" ∨ "Docker" = "VBA")) :=
  (C5_exclusions ⟨[], [], [], [], [], [("Docker", 2)]⟩).1 "DevOps" "Docker" (by decide)

/-! ### Display order: characterization of the category counters -/

/-- The Bool mirror of `add_skill`'s three early returns. -/
def skillKept (cat name : String) : Bool :=
  !decide (name ∈ PACKAGE_MANAGERS) && !decide (name ∈ FORBIDDEN_SKILLS) &&
    !decide (cat = "Programming languages" ∧ (name = "HCL" ∨ name = "VBA"))

theorem add_skill_eq (cm : CategoryMap) (cat n : String) :
    add_skill cm cat n =
      if skillKept cat n = true
      then cm.map (fun kv => if kv.1 = cat then (kv.1, counterAdd kv.2 n) else kv)
      else cm := by
  unfold add_skill skillKept
  by_cases h1 : n ∈ PACKAGE_MANAGERS
  · simp [h1]
  · by_cases h2 : n ∈ FORBIDDEN_SKILLS
    · simp [h1, h2]
    · by_cases h3 : cat = "Programming languages" ∧ (n = "HCL" ∨ n = "VBA")
      · simp [h1, h2, h3]
      · simp [h1, h2, h3]

theorem lookupCounter_mapAdd_self (cat n : String) :
    ∀ cm : CategoryMap, (cm.find? (fun kv => kv.1 == cat)).isSome = true →
      lookupCounter (cm.map (fun kv => if kv.1 = cat then (kv.1, counterAdd kv.2 n) else kv))
          cat =
        counterAdd (lookupCounter cm cat) n := by
  intro cm
  induction cm with
  | nil => intro h; simp [List.find?] at h
  | cons kv cm' ih =>
    intro h
    by_cases hk : kv.1 = cat
    · have hb : (kv.1 == cat) = true := beq_iff_eq.mpr hk
      simp only [List.map_cons, if_pos hk, lookupCounter, List.find?, hk, beq_self_eq_true]
      have hb2 : ((kv.1, counterAdd kv.2 n).1 == cat) = true := hb
      simp [List.find?, hb, hk]
    · have hb : (kv.1 == cat) = false := beq_eq_false_iff_ne.mpr hk
      simp only [List.find?, hb] at h
      have := ih h
      simp only [List.map_cons, if_neg hk, lookupCounter, List.find?, hb] at this ⊢
      exact this

theorem lookupCounter_mapAdd_other (cat n cat2 : String) (hne : cat2 ≠ cat) :
    ∀ cm : CategoryMap,
      lookupCounter (cm.map (fun kv => if kv.1 = cat then (kv.1, counterAdd kv.2 n) else kv))
          cat2 =
        lookupCounter cm cat2 := by
  intro cm
  induction cm with
  | nil => rfl
  | cons kv cm' ih =>
    by_cases hk : kv.1 = cat
    · have hb : (kv.1 == cat2) = false := by
        rw [beq_eq_false_iff_ne]
        intro he
        exact hne (by rw [← he, hk])
      simp only [List.map_cons, if_pos hk, lookupCounter, List.find?, hb] at ih ⊢
      exact ih
    · by_cases hk2 : kv.1 = cat2
      · have hb : (kv.1 == cat2) = true := beq_iff_eq.mpr hk2
        simp [List.find?, hb, lookupCounter, hk]
      · have hb : (kv.1 == cat2) = false := beq_eq_false_iff_ne.mpr hk2
        simp only [List.map_cons, if_neg hk, lookupCounter, List.find?, hb] at ih ⊢
        exact ih

theorem find?_isSome_mapAdd (cat n cat2 : String) :
    ∀ cm : CategoryMap,
      ((cm.map (fun kv => if kv.1 = cat then (kv.1, counterAdd kv.2 n) else kv)).find?
        (fun kv => kv.1 == cat2)).isSome =
      (cm.find? (fun kv => kv.1 == cat2)).isSome := by
  intro cm
  induction cm with
  | nil => rfl
  | cons kv cm' ih =>
    by_cases hk : kv.1 = cat
    · by_cases hb : (kv.1 == cat2) = true
      · rw [hk] at hb
        simp [List.find?, hk, hb]
      · have hb2 : (kv.1 == cat2) = false := by rw [Bool.eq_false_iff]; exact hb
        simp only [List.map_cons, if_pos hk, List.find?, hb2] at ih ⊢
        exact ih
    · by_cases hb : (kv.1 == cat2) = true
      · simp [List.find?, hk, hb]
      · have hb2 : (kv.1 == cat2) = false := by rw [Bool.eq_false_iff]; exact hb
        simp only [List.map_cons, if_neg hk, List.find?, hb2] at ih ⊢
        exact ih

theorem lookupCounter_addSkill_other (cm : CategoryMap) (cat n cat2 : String)
    (hne : cat2 ≠ cat) :
    lookupCounter (add_skill cm cat n) cat2 = lookupCounter cm cat2 := by
  rw [add_skill_eq]
  by_cases hk : skillKept cat n = true
  · rw [if_pos hk]
    exact lookupCounter_mapAdd_other cat n cat2 hne cm
  · rw [if_neg hk]

theorem lookupCounter_addSkill_self (cm : CategoryMap) (cat n : String)
    (hsome : (cm.find? (fun kv => kv.1 == cat)).isSome = true) :
    lookupCounter (add_skill cm cat n) cat =
      if skillKept cat n = true then counterAdd (lookupCounter cm cat) n
      else lookupCounter cm cat := by
  rw [add_skill_eq]
  by_cases hk : skillKept cat n = true
  · rw [if_pos hk, if_pos hk]
    exact lookupCounter_mapAdd_self cat n cm hsome
  · rw [if_neg hk, if_neg hk]

theorem find?_isSome_addSkill (cm : CategoryMap) (cat n cat2 : String) :
    ((add_skill cm cat n).find? (fun kv => kv.1 == cat2)).isSome =
      (cm.find? (fun kv => kv.1 == cat2)).isSome := by
  rw [add_skill_eq]
  by_cases hk : skillKept cat n = true
  · rw [if_pos hk]
    exact find?_isSome_mapAdd cat n cat2 cm
  · rw [if_neg hk]

theorem fillCategory_lookup_other (cat' : String) (c : PyCounter) (cat : String)
    (hne : cat ≠ cat') :
    ∀ cm : CategoryMap, lookupCounter (fillCategory cm cat' c) cat = lookupCounter cm cat := by
  intro cm
  unfold fillCategory
  induction most_common c generalizing cm with
  | nil => rfl
  | cons kv L ih =>
    rw [List.foldl_cons, ih]
    exact lookupCounter_addSkill_other cm cat' kv.1 cat hne

theorem fillCategory_find?_isSome (cat' : String) (c : PyCounter) (cat : String) :
    ∀ cm : CategoryMap,
      ((fillCategory cm cat' c).find? (fun kv => kv.1 == cat)).isSome =
        (cm.find? (fun kv => kv.1 == cat)).isSome := by
  intro cm
  unfold fillCategory
  induction most_common c generalizing cm with
  | nil => rfl
  | cons kv L ih =>
    rw [List.foldl_cons, ih]
    exact find?_isSome_addSkill cm cat' kv.1 cat

theorem fillCategory_lookup_self (cat : String) (c : PyCounter) :
    ∀ (L : PyCounter) (cm : CategoryMap),
      (cm.find? (fun kv => kv.1 == cat)).isSome = true →
      lookupCounter (L.foldl (fun cm kv => add_skill cm cat kv.1) cm) cat =
        L.foldl
          (fun c0 kv => if skillKept cat kv.1 = true then counterAdd c0 kv.1 else c0)
          (lookupCounter cm cat) := by
  intro L
  induction L with
  | nil => intro cm _; rfl
  | cons kv L ih =>
    intro cm hsome
    rw [List.foldl_cons, List.foldl_cons]
    have hsome2 : ((add_skill cm cat kv.1).find? (fun kv => kv.1 == cat)).isSome = true := by
      rw [find?_isSome_addSkill]
      exact hsome
    rw [ih _ hsome2, lookupCounter_addSkill_self cm cat kv.1 hsome]

theorem counterFold_fresh (cat : String) :
    ∀ (L : PyCounter) (c0 : PyCounter),
      (∀ kv ∈ L, (c0.find? (fun kv2 => kv2.1 == kv.1)).isSome = false) →
      (L.map Prod.fst).Nodup →
      L.foldl (fun c0 kv => if skillKept cat kv.1 = true then counterAdd c0 kv.1 else c0) c0 =
        c0 ++ (L.filter (fun kv => skillKept cat kv.1)).map (fun kv => (kv.1, 1)) := by
  intro L
  induction L with
  | nil => intro c0 _ _; simp
  | cons kv L ih =>
    intro c0 hfresh hnd
    rw [List.foldl_cons, List.filter_cons]
    have hnd2 : (L.map Prod.fst).Nodup := by
      rw [List.map_cons, List.nodup_cons] at hnd
      exact hnd.2
    have hkvfst : kv.1 ∉ L.map Prod.fst := by
      rw [List.map_cons, List.nodup_cons] at hnd
      exact hnd.1
    by_cases hkept : skillKept cat kv.1 = true
    · rw [if_pos hkept, if_pos hkept]
      have hadd : counterAdd c0 kv.1 = c0 ++ [(kv.1, 1)] := by
        unfold counterAdd
        rw [hfresh kv (List.mem_cons_self kv L)]
        simp
      rw [hadd]
      rw [ih (c0 ++ [(kv.1, 1)]) ?_ hnd2]
      · simp [List.append_assoc]
      · intro kv2 hkv2
        have hne : (kv.1 == kv2.1) = false := by
          rw [beq_eq_false_iff_ne]
          intro he
          exact hkvfst (he ▸ List.mem_map_of_mem Prod.fst hkv2)
        have h0 : c0.find? (fun kv3 => kv3.1 == kv2.1) = none := by
          have hf := hfresh kv2 (List.mem_cons_of_mem kv hkv2)
          cases hl : c0.find? (fun kv3 => kv3.1 == kv2.1) with
          | none => rfl
          | some v => rw [hl] at hf; simp at hf
        rw [List.find?_append, h0]
        simp [List.find?, hne]
    · rw [if_neg hkept, if_neg hkept]
      exact ih c0 (fun kv2 hkv2 => hfresh kv2 (List.mem_cons_of_mem kv hkv2)) hnd2

theorem insertSorted_all_keep {α : Type} (kb : α → α → Bool) (x : α) :
    ∀ l : List α, (∀ y ∈ l, kb y x = true) → insertSorted kb x l = l ++ [x] := by
  intro l
  induction l with
  | nil => intro _; rfl
  | cons y ys ih =>
    intro h
    unfold insertSorted
    rw [h y (List.mem_cons_self y ys)]
    simp only [if_true, List.cons_append, List.cons.injEq, true_and]
    exact ih (fun z hz => h z (List.mem_cons_of_mem y hz))

theorem stableSort_all_keep {α : Type} (kb : α → α → Bool) :
    ∀ l : List α, (∀ a ∈ l, ∀ b ∈ l, kb a b = true) → stableSort kb l = l := by
  have key : ∀ (l acc : List α),
      (∀ a ∈ acc, ∀ b ∈ l, kb a b = true) → (∀ a ∈ l, ∀ b ∈ l, kb a b = true) →
      l.foldl (fun acc x => insertSorted kb x acc) acc = acc ++ l := by
    intro l
    induction l with
    | nil => intro acc _ _; simp
    | cons x xs ih =>
      intro acc hacc hl
      rw [List.foldl_cons,
        insertSorted_all_keep kb x acc (fun y hy => hacc y hy x (List.mem_cons_self x xs))]
      rw [ih (acc ++ [x]) ?_ ?_]
      · simp
      · intro a ha b hb
        rcases List.mem_append.mp ha with ha | ha
        · exact hacc a ha b (List.mem_cons_of_mem x hb)
        · rw [List.mem_singleton] at ha
          rw [ha]
          exact hl x (List.mem_cons_self x xs) b (List.mem_cons_of_mem x hb)
      · intro a ha b hb
        exact hl a (List.mem_cons_of_mem x ha) b (List.mem_cons_of_mem x hb)
  intro l h
  simpa [stableSort] using key l [] (by intro a ha; cases ha) h

theorem insertSorted_perm {α : Type} (kb : α → α → Bool) (x : α) :
    ∀ l : List α, (insertSorted kb x l).Perm (x :: l) := by
  intro l
  induction l with
  | nil => exact List.Perm.refl [x]
  | cons y ys ih =>
    unfold insertSorted
    by_cases hk : kb y x = true
    · rw [if_pos hk]
      exact (ih.cons y).trans (List.Perm.swap x y ys)
    · rw [if_neg hk]

theorem stableSort_perm {α : Type} (kb : α → α → Bool) (l : List α) :
    (stableSort kb l).Perm l := by
  have key : ∀ (l acc : List α),
      (l.foldl (fun acc x => insertSorted kb x acc) acc).Perm (acc ++ l) := by
    intro l
    induction l with
    | nil => intro acc; simp
    | cons x xs ih =>
      intro acc
      rw [List.foldl_cons]
      refine (ih _).trans ?_
      refine (((insertSorted_perm kb x acc).append_right xs)).trans ?_
      exact List.perm_middle.symm
  simpa using key l []

theorem most_common_fst_nodup (c : PyCounter) (h : (c.map Prod.fst).Nodup) :
    ((most_common c).map Prod.fst).Nodup :=
  (((stableSort_perm _ c).map Prod.fst).nodup_iff).mpr h

/-- `Counter[name]` as rendered data: the count stored under a name. -/
def countIn (c : PyCounter) (n : String) : Nat :=
  ((c.find? (fun kv => kv.1 == n)).map Prod.snd).getD 0

theorem countIn_of_mem_nodup :
    ∀ c : PyCounter, (c.map Prod.fst).Nodup → ∀ kv ∈ c, countIn c kv.1 = kv.2 := by
  intro c
  induction c with
  | nil => intro _ kv hkv; cases hkv
  | cons kv0 rest ih =>
    intro hnd kv hkv
    rw [List.map_cons, List.nodup_cons] at hnd
    rcases List.mem_cons.mp hkv with h | h
    · rw [h]
      simp [countIn, List.find?]
    · have hne : (kv0.1 == kv.1) = false := by
        rw [beq_eq_false_iff_ne]
        intro he
        exact hnd.1 (he ▸ List.mem_map_of_mem Prod.fst h)
      unfold countIn
      simp only [List.find?, hne]
      exact ih hnd.2 kv h

/-- Descending order by count. -/
def descCount (a b : String × Nat) : Prop := b.2 ≤ a.2

theorem insertSorted_desc (x : String × Nat) :
    ∀ l : PyCounter, l.Pairwise descCount →
      (insertSorted (fun y x => decide (x.2 ≤ y.2)) x l).Pairwise descCount := by
  intro l
  induction l with
  | nil => intro _; simp [insertSorted, List.pairwise_singleton]
  | cons y ys ih =>
    intro h
    rw [List.pairwise_cons] at h
    unfold insertSorted
    by_cases hk : (decide (x.2 ≤ y.2) : Bool) = true
    · rw [if_pos hk]
      rw [List.pairwise_cons]
      constructor
      · intro z hz
        rcases (mem_insertSorted _ x z ys).mp hz with hz | hz
        · rw [hz]
          exact (of_decide_eq_true hk : x.2 ≤ y.2)
        · exact h.1 z hz
      · exact ih h.2
    · rw [if_neg hk]
      have hyx : y.2 ≤ x.2 := by
        rw [decide_eq_true_eq] at hk
        omega
      rw [List.pairwise_cons]
      constructor
      · intro z hz
        rcases List.mem_cons.mp hz with hz | hz
        · rw [hz]; exact hyx
        · exact le_trans (h.1 z hz) hyx
      · rw [List.pairwise_cons]
        exact h

theorem most_common_sorted (c : PyCounter) : (most_common c).Pairwise descCount := by
  have key : ∀ (l : List (String × Nat)) (acc : PyCounter), acc.Pairwise descCount →
      (l.foldl (fun acc x => insertSorted (fun y x => decide (x.2 ≤ y.2)) x acc)
        acc).Pairwise descCount := by
    intro l
    induction l with
    | nil => intro acc h; exact h
    | cons x xs ih =>
      intro acc h
      rw [List.foldl_cons]
      exact ih _ (insertSorted_desc x acc h)
  exact key c [] List.Pairwise.nil

/-- The aggregate counter feeding each category (lines 682-698); the
`Misc tools` category is never filled. -/
def aggCounterFor (agg : Aggregate) (cat : String) : PyCounter :=
  if cat = "Programming languages" then agg.languages
  else if cat = "Frontend development" then agg.frontend
  else if cat = "Data Science & AI" then agg.datasci
  else if cat = "Services & Frameworks" then agg.services
  else if cat = "Databases" then agg.dbs
  else if cat = "DevOps" then agg.devops
  else []

theorem category_items_characterization (agg : Aggregate) (cat : String)
    (aggC : PyCounter)
    (hlook : lookupCounter (buildCategoryMap agg) cat =
      (most_common aggC).foldl
        (fun c0 kv => if skillKept cat kv.1 = true then counterAdd c0 kv.1 else c0) [])
    (hnd : (aggC.map Prod.fst).Nodup) :
    (most_common (lookupCounter (buildCategoryMap agg) cat)).map Prod.fst =
      ((most_common aggC).filter (fun kv => skillKept cat kv.1)).map Prod.fst ∧
    ((most_common (lookupCounter (buildCategoryMap agg) cat)).map Prod.fst).Pairwise
      (fun a b => countIn aggC b ≤ countIn aggC a) := by
  have hndmc : ((most_common aggC).map Prod.fst).Nodup := most_common_fst_nodup aggC hnd
  have hfold := counterFold_fresh cat (most_common aggC) [] (fun kv _ => rfl) hndmc
  rw [hlook, hfold, List.nil_append]
  set F := (most_common aggC).filter (fun kv => skillKept cat kv.1) with hF
  have hones : ∀ a ∈ F.map (fun kv => (kv.1, (1 : Nat))), a.2 = 1 := by
    intro a ha
    obtain ⟨kv, _, heq⟩ := List.mem_map.mp ha
    rw [← heq]
  have hmc : most_common (F.map (fun kv => (kv.1, (1 : Nat)))) =
      F.map (fun kv => (kv.1, (1 : Nat))) := by
    refine stableSort_all_keep _ _ ?_
    intro a ha b hb
    rw [hones a ha, hones b hb]
    simp
  rw [hmc, List.map_map]
  have hfeq : F.map (Prod.fst ∘ fun kv => (kv.1, (1 : Nat))) = F.map Prod.fst := by
    apply List.map_congr_left
    intro kv _
    rfl
  rw [hfeq]
  refine ⟨rfl, ?_⟩
  have hFsorted : F.Pairwise descCount :=
    (most_common_sorted aggC).sublist (List.filter_sublist _)
  rw [List.pairwise_map]
  refine hFsorted.imp_of_mem ?_
  intro a b ha hb hdesc
  have hamem : a ∈ aggC := (mem_stableSort _ aggC a).mp (List.mem_of_mem_filter ha)
  have hbmem : b ∈ aggC := (mem_stableSort _ aggC b).mp (List.mem_of_mem_filter hb)
  rw [countIn_of_mem_nodup aggC hnd a hamem, countIn_of_mem_nodup aggC hnd b hbmem]
  exact hdesc

/-- For aggregate counters with distinct keys, each category displays
exactly the aggregate's `most_common` names that survive the exclusions —
descending repository frequency, ties kept in `most_common`'s stable
(first-inserted-first) order. -/
theorem display_descending_of_nodup (agg : Aggregate)
    (hnd : ∀ cat : String, ((aggCounterFor agg cat).map Prod.fst).Nodup) :
    ∀ cat ∈ CATEGORY_NAMES,
      (most_common (lookupCounter (buildCategoryMap agg) cat)).map Prod.fst =
        ((most_common (aggCounterFor agg cat)).filter
          (fun kv => skillKept cat kv.1)).map Prod.fst ∧
      ((most_common (lookupCounter (buildCategoryMap agg) cat)).map Prod.fst).Pairwise
        (fun a b => countIn (aggCounterFor agg cat) b ≤ countIn (aggCounterFor agg cat) a) := by
  intro cat hcat
  have hinit : ∀ c : String, c ∈ CATEGORY_NAMES →
      (initCategoryMap.find? (fun kv => kv.1 == c)).isSome = true := by
    decide
  fin_cases hcat
  · -- Programming languages
    refine category_items_characterization agg "Programming languages" agg.languages ?_
      (by have := hnd "Programming languages"; simpa [aggCounterFor] using this)
    unfold buildCategoryMap
    rw [fillCategory_lookup_other "DevOps" agg.devops _ (by decide),
      fillCategory_lookup_other "Databases" agg.dbs _ (by decide),
      fillCategory_lookup_other "Services & Frameworks" agg.services _ (by decide),
      fillCategory_lookup_other "Data Science & AI" agg.datasci _ (by decide),
      fillCategory_lookup_other "Frontend development" agg.frontend _ (by decide)]
    rw [fillCategory, fillCategory_lookup_self "Programming languages" agg.languages
      (most_common agg.languages) initCategoryMap (by decide)]
    rfl
  · -- Frontend development
    refine category_items_characterization agg "Frontend development" agg.frontend ?_
      (by have := hnd "Frontend development"; simpa [aggCounterFor] using this)
    unfold buildCategoryMap
    rw [fillCategory_lookup_other "DevOps" agg.devops _ (by decide),
      fillCategory_lookup_other "Databases" agg.dbs _ (by decide),
      fillCategory_lookup_other "Services & Frameworks" agg.services _ (by decide),
      fillCategory_lookup_other "Data Science & AI" agg.datasci _ (by decide)]
    rw [fillCategory, fillCategory_lookup_self "Frontend development" agg.frontend
      (most_common agg.frontend) _ ?_]
    · rw [fillCategory_lookup_other "Programming languages" agg.languages _ (by decide)]
      rfl
    · rw [fillCategory_find?_isSome]
      decide
  · -- Data Science & AI
    refine category_items_characterization agg "Data Science & AI" agg.datasci ?_
      (by have := hnd "Data Science & AI"; simpa [aggCounterFor] using this)
    unfold buildCategoryMap
    rw [fillCategory_lookup_other "DevOps" agg.devops _ (by decide),
      fillCategory_lookup_other "Databases" agg.dbs _ (by decide),
      fillCategory_lookup_other "Services & Frameworks" agg.services _ (by decide)]
    rw [fillCategory, fillCategory_lookup_self "Data Science & AI" agg.datasci
      (most_common agg.datasci) _ ?_]
    · rw [fillCategory_lookup_other "Frontend development" agg.frontend _ (by decide),
        fillCategory_lookup_other "Programming languages" agg.languages _ (by decide)]
      rfl
    · rw [fillCategory_find?_isSome, fillCategory_find?_isSome]
      decide
  · -- Misc tools: never filled, counter stays empty
    refine category_items_characterization agg "Misc tools" [] ?_ (by simp)
    unfold buildCategoryMap
    rw [fillCategory_lookup_other "DevOps" agg.devops _ (by decide),
      fillCategory_lookup_other "Databases" agg.dbs _ (by decide),
      fillCategory_lookup_other "Services & Frameworks" agg.services _ (by decide),
      fillCategory_lookup_other "Data Science & AI" agg.datasci _ (by decide),
      fillCategory_lookup_other "Frontend development" agg.frontend _ (by decide),
      fillCategory_lookup_other "Programming languages" agg.languages _ (by decide)]
    rfl
  · -- Services & Frameworks
    refine category_items_characterization agg "Services & Frameworks" agg.services ?_
      (by have := hnd "Services & Frameworks"; simpa [aggCounterFor] using this)
    unfold buildCategoryMap
    rw [fillCategory_lookup_other "DevOps" agg.devops _ (by decide),
      fillCategory_lookup_other "Databases" agg.dbs _ (by decide)]
    rw [fillCategory, fillCategory_lookup_self "Services & Frameworks" agg.services
      (most_common agg.services) _ ?_]
    · rw [fillCategory_lookup_other "Data Science & AI" agg.datasci _ (by decide),
        fillCategory_lookup_other "Frontend development" agg.frontend _ (by decide),
        fillCategory_lookup_other "Programming languages" agg.languages _ (by decide)]
      rfl
    · rw [fillCategory_find?_isSome, fillCategory_find?_isSome, fillCategory_find?_isSome]
      decide
  · -- Databases
    refine category_items_characterization agg "Databases" agg.dbs ?_
      (by have := hnd "Databases"; simpa [aggCounterFor] using this)
    unfold buildCategoryMap
    rw [fillCategory_lookup_other "DevOps" agg.devops _ (by decide)]
    rw [fillCategory, fillCategory_lookup_self "Databases" agg.dbs
      (most_common agg.dbs) _ ?_]
    · rw [fillCategory_lookup_other "Services & Frameworks" agg.services _ (by decide),
        fillCategory_lookup_other "Data Science & AI" agg.datasci _ (by decide),
        fillCategory_lookup_other "Frontend development" agg.frontend _ (by decide),
        fillCategory_lookup_other "Programming languages" agg.languages _ (by decide)]
      rfl
    · rw [fillCategory_find?_isSome, fillCategory_find?_isSome, fillCategory_find?_isSome,
        fillCategory_find?_isSome]
      decide
  · -- DevOps
    refine category_items_characterization agg "DevOps" agg.devops ?_
      (by have := hnd "DevOps"; simpa [aggCounterFor] using this)
    unfold buildCategoryMap
    rw [fillCategory, fillCategory_lookup_self "DevOps" agg.devops
      (most_common agg.devops) _ ?_]
    · rw [fillCategory_lookup_other "Databases" agg.dbs _ (by decide),
        fillCategory_lookup_other "Services & Frameworks" agg.services _ (by decide),
        fillCategory_lookup_other "Data Science & AI" agg.datasci _ (by decide),
        fillCategory_lookup_other "Frontend development" agg.frontend _ (by decide),
        fillCategory_lookup_other "Programming languages" agg.languages _ (by decide)]
      rfl
    · rw [fillCategory_find?_isSome, fillCategory_find?_isSome, fillCategory_find?_isSome,
        fillCategory_find?_isSome, fillCategory_find?_isSome]
      decide

/-! ### The aggregation loop (lines 643-670)

One repository's `DetectionResult` as the aggregation loop consumes it:
`languages` iterates the keys of a dict (insertion-ordered), but
`frontend`, `services`, `dbs`, `devops` and `datasci` iterate Python
*sets*, whose iteration order is a per-process artifact of string hash
randomization — the upstream state fixes each collection only up to
permutation.  The embedding therefore takes each collection as a list in
the order one particular run happens to iterate it. -/

structure DetectionSets where
  languages : List String
  frontend : List String
  services : List String
  dbs : List String
  devops : List String
  datasci : List String

/-- Lines 659-670: one repository folded into the six `aggregate`
counters. -/
def aggregateStep (agg : Aggregate) (det : DetectionSets) : Aggregate :=
  { languages := det.languages.foldl counterAdd agg.languages,
    frontend := det.frontend.foldl counterAdd agg.frontend,
    datasci := det.datasci.foldl counterAdd agg.datasci,
    services := det.services.foldl counterAdd agg.services,
    dbs := det.dbs.foldl counterAdd agg.dbs,
    devops := det.devops.foldl counterAdd agg.devops }

/-- Lines 643-670: the whole aggregation loop over the (sorted) repository
list's detection results. -/
def aggregateAll (dets : List DetectionSets) : Aggregate :=
  dets.foldl aggregateStep ⟨[], [], [], [], [], []⟩

theorem counterAdd_fst_nodup (c : PyCounter) (k : String)
    (h : (c.map Prod.fst).Nodup) : ((counterAdd c k).map Prod.fst).Nodup := by
  unfold counterAdd
  split
  · have hkeys : (c.map (fun kv => if kv.1 = k then (kv.1, kv.2 + 1) else kv)).map Prod.fst
        = c.map Prod.fst := by
      rw [List.map_map]
      apply List.map_congr_left
      intro kv _
      by_cases hk : kv.1 = k
      · simp [hk]
      · simp [hk]
    rw [hkeys]
    exact h
  · rename_i hfind
    rw [List.map_append, List.nodup_append]
    refine ⟨h, List.nodup_singleton k, ?_⟩
    intro x hx hx2
    simp only [List.map_cons, List.map_nil, List.mem_singleton] at hx2
    subst hx2
    obtain ⟨kv, hkv, hfst⟩ := List.mem_map.mp hx
    exact hfind (List.find?_isSome.mpr ⟨kv, hkv, beq_iff_eq.mpr hfst⟩)

theorem foldl_counterAdd_nodup (L : List String) :
    ∀ c : PyCounter, (c.map Prod.fst).Nodup →
      ((L.foldl counterAdd c).map Prod.fst).Nodup := by
  induction L with
  | nil => intro c h; exact h
  | cons x xs ih => intro c h; exact ih _ (counterAdd_fst_nodup c x h)

/-- The six aggregate counters all have distinct keys. -/
def AggNodup (agg : Aggregate) : Prop :=
  (agg.languages.map Prod.fst).Nodup ∧ (agg.frontend.map Prod.fst).Nodup ∧
  (agg.datasci.map Prod.fst).Nodup ∧ (agg.services.map Prod.fst).Nodup ∧
  (agg.dbs.map Prod.fst).Nodup ∧ (agg.devops.map Prod.fst).Nodup

theorem aggregateStep_nodup (agg : Aggregate) (det : DetectionSets)
    (h : AggNodup agg) : AggNodup (aggregateStep agg det) :=
  ⟨foldl_counterAdd_nodup _ _ h.1, foldl_counterAdd_nodup _ _ h.2.1,
   foldl_counterAdd_nodup _ _ h.2.2.1, foldl_counterAdd_nodup _ _ h.2.2.2.1,
   foldl_counterAdd_nodup _ _ h.2.2.2.2.1, foldl_counterAdd_nodup _ _ h.2.2.2.2.2⟩

theorem aggregateAll_nodup (dets : List DetectionSets) :
    ∀ cat : String, ((aggCounterFor (aggregateAll dets) cat).map Prod.fst).Nodup := by
  have key : AggNodup (aggregateAll dets) := by
    unfold aggregateAll
    refine foldl_preserve aggregateStep AggNodup dets
      (fun agg det _ h => aggregateStep_nodup agg det h) _ ?_
    exact ⟨List.nodup_nil, List.nodup_nil, List.nodup_nil, List.nodup_nil,
      List.nodup_nil, List.nodup_nil⟩
  intro cat
  unfold aggCounterFor
  repeat' split
  · exact key.1
  · exact key.2.1
  · exact key.2.2.1
  · exact key.2.2.2.1
  · exact key.2.2.2.2.1
  · exact key.2.2.2.2.2
  · exact List.nodup_nil

/-- C8 (counterexample).  Two passes over identical upstream state need
not produce byte-identical output: a repository whose detected database
set is `{PostgreSQL, MySQL}` — the same set, so the two iteration orders
below are permutations of one another, as two processes with different
string-hash seeds would see it — renders the tied skills in two different
orders, so the generated region differs byte-wise between the runs. -/
theorem C8_counterexample :
    (["PostgreSQL", "MySQL"] : List String).Perm ["MySQL", "PostgreSQL"] ∧
    new_section (aggregateAll [⟨[], [], [], ["PostgreSQL", "MySQL"], [], []⟩]) ≠
      new_section (aggregateAll [⟨[], [], [], ["MySQL", "PostgreSQL"], [], []⟩]) :=
  ⟨List.Perm.swap "MySQL" "PostgreSQL" [], by decide⟩

/-- C8 (amended).  The rendered region is a pure function of the
aggregation inputs *including the iteration order of each detection set*
(which identical upstream state does not fix across processes); for every
such input, each category displays exactly the exclusion-filtered
`most_common` names of its aggregated counter — descending repository
frequency, with ties in the Counter's insertion order, i.e. the order the
aggregation loop first saw them. -/
theorem C8_display_order (dets : List DetectionSets) :
    ∀ cat ∈ CATEGORY_NAMES,
      (most_common (lookupCounter (buildCategoryMap (aggregateAll dets)) cat)).map
          Prod.fst =
        ((most_common (aggCounterFor (aggregateAll dets) cat)).filter
          (fun kv => skillKept cat kv.1)).map Prod.fst ∧
      ((most_common (lookupCounter (buildCategoryMap (aggregateAll dets)) cat)).map
          Prod.fst).Pairwise
        (fun a b => countIn (aggCounterFor (aggregateAll dets) cat) b ≤
          countIn (aggCounterFor (aggregateAll dets) cat) a) :=
  display_descending_of_nodup (aggregateAll dets) (aggregateAll_nodup dets)

/-- Witness for `C8_display_order`: one repository showing PostgreSQL and
MySQL — the Databases display equals the exclusion-filtered `most_common`
of the aggregated counter. -/
theorem C8_display_order_witness :
    (most_common (lookupCounter
        (buildCategoryMap (aggregateAll [⟨["Python"], [], [], ["PostgreSQL", "MySQL"], [], []⟩]))
        "Databases")).map Prod.fst =
      ((most_common (aggCounterFor
        (aggregateAll [⟨["Python"], [], [], ["PostgreSQL", "MySQL"], [], []⟩])
        "Databases")).filter (fun kv => skillKept "Databases" kv.1)).map Prod.fst :=
  ((C8_display_order [⟨["Python"], [], [], ["PostgreSQL", "MySQL"], [], []⟩]
    "Databases" (by decide)).1)

end UpdateMySkills
